import Mathlib

/-!
# Response reverter of the rewrite plugin

A shallow embedding of `plugin/rewrite/reverter.go` and theorems about it.

Modelling conventions.

* A Go `string` is a `Str`, a list of characters.  The only string operations of the
  source are concatenation, `strconv.Itoa` and `strings.Replace` with an ASCII search
  text, which act the same way on characters as on the bytes of valid UTF-8 text.
* `uint16` and `uint32` fields are natural numbers; the source only copies them.
* A `dns.RR` is an interface value: a header together with a concrete record type.
  `RR` keeps the header and a payload variant, `RData.SRV` for `*dns.SRV` and
  `RData.Other` for every other concrete type.  The header field `Rrtype` is
  independent of the variant, as in Go.
* A compiled `*regexp.Regexp` is represented by its `FindStringSubmatch` function,
  which returns the empty list when there is no match and otherwise the list of the
  group texts, group 0 first.
* A runtime panic is an explicit outcome: `none` for the functions returning `Option`,
  and `ret = none` in `WriteMsgOutcome`.
* `Msg` holds its sections as lists of record values, and `WriteMsg` updates them slot by
  slot.  This is exact for a message in which no record object occupies two slots of
  `Answer` and `Extra` and none of them sits in `Ns` (`WriteMsgRef_load`).  `MsgRef` holds
  the sections as Go does, as slices of pointers into a `Heap` of record objects, and
  `WriteMsgRef` mutates the objects in place, so that shared record objects are covered.
* Records and compiled patterns are not nil: the rule list comes validated from the
  rule builder.
-/

namespace Rewrite

/-- A Go string. -/
abbrev Str := List Char

/-- The Go `error` interface: `none` is `nil`. -/
abbrev GoError := Option Str

/-- The character U+007B, the opening brace. -/
def lbrace : Char := Char.ofNat 123

/-- The character U+007D, the closing brace. -/
def rbrace : Char := Char.ofNat 125

/-- The constant `dns.TypeSRV`. -/
def TypeSRV : Nat := 33

/-- The constant `dns.TypeA`. -/
def TypeA : Nat := 1

/-- The constant `dns.ClassINET`. -/
def ClassINET : Nat := 1

/-- The type `dns.Question`. -/
structure Question where
  Name : Str
  Qtype : Nat
  Qclass : Nat
  deriving DecidableEq, Repr

/-- The type `dns.RR_Header`. -/
structure RR_Header where
  Name : Str
  Rrtype : Nat
  Class : Nat
  Ttl : Nat
  Rdlength : Nat
  deriving DecidableEq, Repr

/-- The concrete type behind a `dns.RR` and its payload: `*dns.SRV`, or any other
record type, whose payload the reverter never reads. -/
inductive RData where
  | SRV (Priority Weight Port : Nat) (Target : Str)
  | Other (rdata : List Nat)
  deriving DecidableEq, Repr

/-- A resource record: the value of a `dns.RR` interface. -/
structure RR where
  Hdr : RR_Header
  Body : RData
  deriving DecidableEq, Repr

/-- The type `dns.MsgHdr`. -/
structure MsgHdr where
  Id : Nat
  Response : Bool
  Opcode : Int
  Authoritative : Bool
  Truncated : Bool
  RecursionDesired : Bool
  RecursionAvailable : Bool
  Zero : Bool
  AuthenticatedData : Bool
  CheckingDisabled : Bool
  Rcode : Int
  deriving DecidableEq, Repr

/-- The type `dns.Msg`. -/
structure Msg where
  Hdr : MsgHdr
  Compress : Bool
  Question : List Question
  Answer : List RR
  Ns : List RR
  Extra : List RR
  deriving DecidableEq, Repr

/-- The two methods of `dns.ResponseWriter` that the reverter calls. -/
structure ResponseWriter where
  WriteMsg : Msg → GoError
  Write : List Nat → Int × GoError

/-- ResponseRule contains a rule to rewrite a response with. -/
structure ResponseRule where
  Active : Bool
  /-- The field `Type` of the source (a reserved word here). -/
  RuleType : Str
  Pattern : Str → List Str
  Replacement : Str
  TTL : Nat

/-- ResponseReverter reverses the operations done on the question section of a
packet. -/
structure ResponseReverter where
  ResponseWriter : ResponseWriter
  originalQuestion : Question
  ResponseRewrite : Bool
  ResponseRules : List ResponseRule

/-- The function `strconv.Itoa` on a non-negative index. -/
def Itoa (n : Nat) : Str := Nat.toDigits 10 n

/-- The scan of `strings.Replace` for a non-empty search text: `skip` counts the
characters of a replaced occurrence that are still to be passed over. -/
def replaceScan (old new : Str) : Nat → Str → Str
  | _, [] => []
  | skip + 1, _ :: cs => replaceScan old new skip cs
  | 0, c :: cs =>
    if old.isPrefixOf (c :: cs) then new ++ replaceScan old new (old.length - 1) cs
    else c :: replaceScan old new 0 cs

/-- The call `strings.Replace(s, old, new, -1)`: every non-overlapping occurrence of
`old` in `s`, found from the left, is replaced by `new`.  With an empty `old` the text
`new` is put in front of every character and at the end. -/
def Replace (s old new : Str) : Str :=
  if old = [] then new ++ s.flatMap (fun c => c :: new)
  else replaceScan old new 0 s

/-- The placeholder text of group `groupIndex`: an opening brace, the decimal index, a
closing brace. -/
def groupIndexStr (groupIndex : Nat) : Str := lbrace :: (Itoa groupIndex ++ [rbrace])

/-- The loop `for groupIndex, groupValue := range regexGroups` of `rewriteName`,
started at index `groupIndex` on working text `s`. -/
def replaceGroups : Nat → List Str → Str → Str
  | _, [], s => s
  | groupIndex, groupValue :: rest, s =>
    replaceGroups (groupIndex + 1) rest (Replace s (groupIndexStr groupIndex) groupValue)

/-- The function `rewriteName`: the pair of the values of `*name` and
`*isNameRewritten` when it returns. -/
def rewriteName (rule : ResponseRule) (name : Str) (isNameRewritten : Bool) : Str × Bool :=
  let regexGroups := rule.Pattern name
  if regexGroups.length = 0 then (name, isNameRewritten)
  else (replaceGroups 0 regexGroups rule.Replacement, true)

/-- The local variables of `rewriteResourceRecord`. -/
structure Locals where
  isNameRewritten : Bool
  isTTLRewritten : Bool
  isSrvTargetRewritten : Bool
  name : Str
  ttl : Nat
  srvTarget : Str
  deriving DecidableEq, Repr

/-- One iteration of the loop over `r.ResponseRules` in `rewriteResourceRecord`. -/
def ruleStep (rr : RR) (v : Locals) (rule : ResponseRule) : Locals :=
  let rule := if rule.RuleType = "".toList then { rule with RuleType := "name".toList } else rule
  if rule.RuleType = "name".toList then
    let p := rewriteName rule v.name v.isNameRewritten
    let v := { v with name := p.1, isNameRewritten := p.2 }
    if rr.Hdr.Rrtype = TypeSRV then
      let q := rewriteName rule v.srvTarget v.isSrvTargetRewritten
      { v with srvTarget := q.1, isSrvTargetRewritten := q.2 }
    else v
  else if rule.RuleType = "ttl".toList then
    { v with ttl := rule.TTL, isTTLRewritten := true }
  else v

/-- The type assertion `rr.(*dns.SRV).Target`: `none` when the concrete type is not
`*dns.SRV`, where Go panics. -/
def srvTargetOf (rr : RR) : Option Str :=
  match rr.Body with
  | .SRV _ _ _ target => some target
  | .Other _ => none

/-- The assignment `rr.(*dns.SRV).Target = srvTarget`: `none` when the concrete type is
not `*dns.SRV`. -/
def setSrvTarget (rr : RR) (srvTarget : Str) : Option RR :=
  match rr.Body with
  | .SRV priority weight port _ => some { rr with Body := .SRV priority weight port srvTarget }
  | .Other _ => none

/-- The write-back at the end of `rewriteResourceRecord`. -/
def writeBack (rr : RR) (v : Locals) : Option RR :=
  let rr := if v.isNameRewritten then { rr with Hdr := { rr.Hdr with Name := v.name } } else rr
  let rr := if v.isTTLRewritten then { rr with Hdr := { rr.Hdr with Ttl := v.ttl } } else rr
  if v.isSrvTargetRewritten then setSrvTarget rr v.srvTarget else some rr

/-- The function `rewriteResourceRecord`: the record as the call leaves it, or `none`
when a type assertion panics (the record is then untouched). -/
def rewriteResourceRecord (_res : Msg) (rr : RR) (r : ResponseReverter) : Option RR :=
  let init : Str → Locals := fun srvTarget =>
    { isNameRewritten := false, isTTLRewritten := false, isSrvTargetRewritten := false,
      name := rr.Hdr.Name, ttl := rr.Hdr.Ttl, srvTarget := srvTarget }
  if rr.Hdr.Rrtype = TypeSRV then
    match srvTargetOf rr with
    | none => none
    | some target => writeBack rr (r.ResponseRules.foldl (ruleStep rr) (init target))
  else writeBack rr (r.ResponseRules.foldl (ruleStep rr) (init []))

/-- The loop `for _, rule := range r.ResponseRules` with the slice kept in the state:
every element is copied into the loop variable, on which `ruleStep` does the
defaulting of the type; the result is the locals and the slice as the loop leaves
them. -/
def rangeRules (rr : RR) : List ResponseRule → Locals → Locals × List ResponseRule
  | [], v => (v, [])
  | elem :: rest, v =>
    let rule := elem
    ((rangeRules rr rest (ruleStep rr v rule)).1, elem :: (rangeRules rr rest (ruleStep rr v rule)).2)

/-- A loop `for _, rr := range section` calling a function that mutates the record
or panics: the section as the loop leaves it, and whether the loop ran to its end. -/
def rangeRecords (f : RR → Option RR) : List RR → List RR × Bool
  | [] => ([], true)
  | rr :: rest =>
    match f rr with
    | none => (rr :: rest, false)
    | some rr' => ((rangeRecords f rest).1.cons rr', (rangeRecords f rest).2)

/-- NewResponseReverter returns a new ResponseReverter; `none` when `r.Question[0]`
is out of range. -/
def NewResponseReverter (w : ResponseWriter) (r : Msg) : Option ResponseReverter :=
  match r.Question with
  | [] => none
  | q :: _ => some { ResponseWriter := w, originalQuestion := q, ResponseRewrite := false,
                     ResponseRules := [] }

/-- What a call of `WriteMsg` does: the response object as the call leaves it, the
messages handed to the wrapped writer in call order, and the returned error (`none`
when the call panics). -/
structure WriteMsgOutcome where
  res : Msg
  handed : List Msg
  ret : Option GoError

/-- The method `ResponseReverter.WriteMsg`. -/
def ResponseReverter.WriteMsg (r : ResponseReverter) (res : Msg) : WriteMsgOutcome :=
  match res.Question with
  | [] => { res := res, handed := [], ret := none }
  | _ :: qs =>
    let res := { res with Question := r.originalQuestion :: qs }
    if r.ResponseRewrite then
      let a := rangeRecords (fun rr => rewriteResourceRecord res rr r) res.Answer
      let res := { res with Answer := a.1 }
      if a.2 then
        let e := rangeRecords (fun rr => rewriteResourceRecord res rr r) res.Extra
        let res := { res with Extra := e.1 }
        if e.2 then { res := res, handed := [res], ret := some (r.ResponseWriter.WriteMsg res) }
        else { res := res, handed := [], ret := none }
      else { res := res, handed := [], ret := none }
    else { res := res, handed := [res], ret := some (r.ResponseWriter.WriteMsg res) }

/-- The method `ResponseReverter.Write`. -/
def ResponseReverter.Write (r : ResponseReverter) (buf : List Nat) : Int × GoError :=
  let p := r.ResponseWriter.Write buf
  (p.1, p.2)

/-! ## Messages of pointers -/

/-- The store of record objects: the record that each address holds.  A `dns.RR` in a
section of a message is a pointer into this store. -/
abbrev Heap := Nat → RR

/-- A `dns.Msg` with the record sections as Go holds them: slices of pointers, given
by the addresses of the record objects.  The same address may occupy several slots. -/
structure MsgRef where
  Hdr : MsgHdr
  Compress : Bool
  Question : List Question
  Answer : List Nat
  Ns : List Nat
  Extra : List Nat
  deriving DecidableEq, Repr

/-- The message as a reader sees it: every slot replaced by the record its address
holds. -/
def MsgRef.load (m : MsgRef) (h : Heap) : Msg :=
  { Hdr := m.Hdr, Compress := m.Compress, Question := m.Question,
    Answer := m.Answer.map h, Ns := m.Ns.map h, Extra := m.Extra.map h }

/-- The call `rewriteResourceRecord(res, rr, r)` for the pointer `rr` with address `p`:
the record object is mutated in place, or the call panics with the store untouched. -/
def rewriteResourceRecordAt (res : Msg) (p : Nat) (r : ResponseReverter) (h : Heap) :
    Option Heap :=
  match rewriteResourceRecord res (h p) r with
  | none => none
  | some rr' => some (Function.update h p rr')

/-- A loop `for _, rr := range section` over a slice of pointers, calling a function that
mutates the record object or panics: the store as the loop leaves it, and whether the
loop ran to its end. -/
def rangeRefs (f : Nat → Heap → Option Heap) : List Nat → Heap → Heap × Bool
  | [], h => (h, true)
  | p :: rest, h =>
    match f p h with
    | none => (h, false)
    | some h' => rangeRefs f rest h'

/-- What a call of `WriteMsg` does on a message of pointers: the message and the store as
the call leaves them, the messages handed to the wrapped writer as it reads them, and the
returned error (`none` when the call panics). -/
structure WriteMsgRefOutcome where
  res : MsgRef
  heap : Heap
  handed : List Msg
  ret : Option GoError

/-- The method `ResponseReverter.WriteMsg` on a message of pointers. -/
def ResponseReverter.WriteMsgRef (r : ResponseReverter) (res : MsgRef) (h : Heap) :
    WriteMsgRefOutcome :=
  match res.Question with
  | [] => { res := res, heap := h, handed := [], ret := none }
  | _ :: qs =>
    let res := { res with Question := r.originalQuestion :: qs }
    if r.ResponseRewrite then
      let a := rangeRefs (fun p h' => rewriteResourceRecordAt (res.load h') p r h') res.Answer h
      if a.2 then
        let e := rangeRefs (fun p h' => rewriteResourceRecordAt (res.load h') p r h')
          res.Extra a.1
        if e.2 then
          { res := res, heap := e.1, handed := [res.load e.1],
            ret := some (r.ResponseWriter.WriteMsg (res.load e.1)) }
        else { res := res, heap := e.1, handed := [], ret := none }
      else { res := res, heap := a.1, handed := [], ret := none }
    else
      { res := res, heap := h, handed := [res.load h],
        ret := some (r.ResponseWriter.WriteMsg (res.load h)) }

/-! ## Specification-side definitions -/

/-- A rule that the loop of `rewriteResourceRecord` treats as a NAME rule. -/
def isNameRule (rule : ResponseRule) : Prop :=
  rule.RuleType = [] ∨ rule.RuleType = "name".toList

instance : DecidablePred isNameRule := fun rule =>
  inferInstanceAs (Decidable (rule.RuleType = [] ∨ rule.RuleType = "name".toList))

/-- A rule of type "ttl". -/
def isTTLRule (rule : ResponseRule) : Prop := rule.RuleType = "ttl".toList

instance : DecidablePred isTTLRule := fun rule =>
  inferInstanceAs (Decidable (rule.RuleType = "ttl".toList))

/-- The text a single NAME rule makes of a name: the expanded template when the
pattern matches, the name itself otherwise. -/
def applyNameRule (rule : ResponseRule) (name : Str) : Str :=
  if rule.Pattern name = [] then name else replaceGroups 0 (rule.Pattern name) rule.Replacement

/-- The NAME rules of a list applied in list order, each to the text left by the
preceding ones. -/
def applyNameRules : List ResponseRule → Str → Str
  | [], name => name
  | rule :: rest, name =>
    if isNameRule rule then applyNameRules rest (applyNameRule rule name)
    else applyNameRules rest name

/-- The TTL left by a rule list: the value of its last "ttl" rule, or the given TTL
when it has none. -/
def lastTTL (rules : List ResponseRule) (ttl : Nat) : Nat :=
  match (rules.filter (fun rule => decide (isTTLRule rule))).getLast? with
  | some rule => rule.TTL
  | none => ttl

/-- Whether some NAME rule of the list matches the text the preceding rules left. -/
def anyNameMatch : List ResponseRule → Str → Bool
  | [], _ => false
  | rule :: rest, name =>
    if isNameRule rule then
      decide (rule.Pattern name ≠ []) || anyNameMatch rest (applyNameRule rule name)
    else anyNameMatch rest name

/-- The TTL the loop of `rewriteResourceRecord` leaves, computed front to back. -/
def ttlAfter : List ResponseRule → Nat → Nat
  | [], ttl => ttl
  | rule :: rest, ttl => if isTTLRule rule then ttlAfter rest rule.TTL else ttlAfter rest ttl

/-- The record `rewriteResourceRecord` leaves when no type assertion fails. -/
def rewrittenRecord (rules : List ResponseRule) (rr : RR) : RR :=
  { Hdr := { rr.Hdr with Name := applyNameRules rules rr.Hdr.Name
                         Ttl := ttlAfter rules rr.Hdr.Ttl }
    Body := match rr.Body with
      | .SRV priority weight port target =>
        .SRV priority weight port
          (if rr.Hdr.Rrtype = TypeSRV then applyNameRules rules target else target)
      | .Other rdata => .Other rdata }

/-- A record on which the type assertions of `rewriteResourceRecord` succeed: when the
header type is SRV the concrete type is `*dns.SRV`. -/
def Consistent (rr : RR) : Prop := rr.Hdr.Rrtype = TypeSRV → srvTargetOf rr ≠ none

instance : DecidablePred Consistent := fun rr =>
  inferInstanceAs (Decidable (rr.Hdr.Rrtype = TypeSRV → srvTargetOf rr ≠ none))

/-- Whether a text occurs somewhere in a name. -/
def containsText (text : Str) : Str → Bool
  | [] => text.isPrefixOf []
  | c :: cs => text.isPrefixOf (c :: cs) || containsText text cs

/-- The function `FindStringSubmatch` of a compiled pattern that is a sequence of literal
texts, each in a capture group, joined by an escaped literal separator, such as
`(dns)\.(core)\.(rocks)`: the pattern is not anchored, so it matches a name that contains
the joined text, and the groups are the whole match followed by the literal texts. -/
def findLiteralGroups (groups : List Str) (sep : Str) (name : Str) : List Str :=
  if containsText (sep.intercalate groups) name then sep.intercalate groups :: groups else []

/-- The first group, counting from index `k`, whose placeholder text starts the text
`s`, with its index. -/
def placeholderAt : Nat → List Str → Str → Option (Nat × Str)
  | _, [], _ => none
  | k, g :: rest, s =>
    if (groupIndexStr k).isPrefixOf s then some (k, g) else placeholderAt (k + 1) rest s

/-- One left-to-right scan of a template in which each placeholder of a group is
replaced by the text of the group; substituted text is not scanned again. -/
def substituteScan (groups : List Str) : Nat → Str → Str
  | _, [] => []
  | skip + 1, _ :: cs => substituteScan groups skip cs
  | 0, c :: cs =>
    match placeholderAt 0 groups (c :: cs) with
    | some (i, g) => g ++ substituteScan groups ((groupIndexStr i).length - 1) cs
    | none => c :: substituteScan groups 0 cs

/-- The simultaneous substitution of the placeholders that occur in a template. -/
def substituteGroups (groups : List Str) (template : Str) : Str :=
  substituteScan groups 0 template

/-- A template whose opening braces are each closed before the next opening brace;
`inside` tells whether an opening brace is waiting for its closing brace. -/
def wellBraced : Bool → Str → Bool
  | inside, [] => !inside
  | false, c :: cs => if c = lbrace then wellBraced true cs else wellBraced false cs
  | true, c :: cs =>
    if c = lbrace then false
    else if c = rbrace then wellBraced false cs else wellBraced true cs

/-- A piece of a template: a character, or a text between braces. -/
inductive Piece where
  | text (c : Char)
  | braces (body : Str)

/-- The text of a piece. -/
def Piece.render : Piece → Str
  | .text c => [c]
  | .braces body => lbrace :: (body ++ [rbrace])

/-- The text of a list of pieces. -/
def renderPieces : List Piece → Str
  | [] => []
  | p :: ps => p.render ++ renderPieces ps

/-- A character other than the opening brace, or a text between braces that holds no
brace. -/
def Piece.Plain : Piece → Prop
  | .text c => c ≠ lbrace
  | .braces body => lbrace ∉ body ∧ rbrace ∉ body

/-- The text of the first group, counting from index `k`, whose decimal index is
`body`. -/
def holeValue : Nat → List Str → Str → Option Str
  | _, [], _ => none
  | k, g :: rest, body => if body = Itoa k then some g else holeValue (k + 1) rest body

/-- The pieces of a template after the placeholders of the groups are filled in. -/
def fillPieces (k : Nat) (groups : List Str) : List Piece → List Piece
  | [] => []
  | .text c :: ps => .text c :: fillPieces k groups ps
  | .braces body :: ps =>
    match holeValue k groups body with
    | some g => g.map Piece.text ++ fillPieces k groups ps
    | none => .braces body :: fillPieces k groups ps

/-- Modelled from the spec: the section scope of a rule of the rule table
(`sectionScope: enum{ANSWER, EXTRA, ALL}`).  `ResponseRule` has no field for it. -/
inductive SectionScope where
  | ANSWER
  | EXTRA
  | ALL
  deriving DecidableEq, Repr

/-- Modelled from the spec: the continuation policy of a rule of the rule table
(`continuation: enum{STOP, CONTINUE}`).  `ResponseRule` has no field for it. -/
inductive Continuation where
  | STOP
  | CONTINUE
  deriving DecidableEq, Repr

/-- Modelled from the spec: a rule of the rule table, the response rule that reaches the
reverter together with the section scope and the continuation policy the configuration
names for it. -/
structure RewriteRule where
  rule : ResponseRule
  sectionScope : SectionScope
  continuation : Continuation

/-- The response with its `Answer` and `Extra` sections exchanged. -/
def swapSections (m : Msg) : Msg := { m with Answer := m.Extra, Extra := m.Answer }

/-- The part of a name before the last occurrence of a text, if the text occurs. -/
def beforeLast (text : Str) : Str → Option Str
  | [] => if text.isPrefixOf [] then some [] else none
  | c :: cs =>
    match beforeLast text cs with
    | some pre => some (c :: pre)
    | none => if text.isPrefixOf (c :: cs) then some [] else none

/-- The function `FindStringSubmatch` of a compiled pattern `(.*)` followed by an escaped
literal text, such as `(.*)\.cluster\.local`, on a name without a line feed: the greedy
group takes everything before the last occurrence of the text. -/
def findGreedyGroup (text : Str) (name : Str) : List Str :=
  match beforeLast text name with
  | some pre => [pre ++ text, pre]
  | none => []

/-- Two records that differ at most in owner name, TTL and, for SRV payloads, target. -/
def SameShape (a b : RR) : Prop :=
  b.Hdr.Rrtype = a.Hdr.Rrtype ∧ b.Hdr.Class = a.Hdr.Class ∧ b.Hdr.Rdlength = a.Hdr.Rdlength ∧
  (a.Hdr.Rrtype ≠ TypeSRV → b.Body = a.Body) ∧
  match a.Body, b.Body with
  | .SRV p w port _, .SRV p' w' port' _ => p' = p ∧ w' = w ∧ port' = port
  | .Other rdata, .Other rdata' => rdata' = rdata
  | _, _ => False

/-- Two rules that differ at most in their `Active` fields. -/
def SameButActive (a b : ResponseRule) : Prop :=
  a.RuleType = b.RuleType ∧ a.Pattern = b.Pattern ∧ a.Replacement = b.Replacement ∧
  a.TTL = b.TTL

/-- What `rewriteResourceRecordAt` does to the store, in closed form. -/
def rewriteAt (rules : List ResponseRule) (p : Nat) (h : Heap) : Option Heap :=
  if Consistent (h p) then some (Function.update h p (rewrittenRecord rules (h p))) else none

/-! ## Example data -/

/-- A writer that accepts every message and every buffer. -/
def okWriter : ResponseWriter :=
  { WriteMsg := fun _ => none, Write := fun buf => (buf.length, none) }

/-- A message header with every field zero. -/
def zeroHdr : MsgHdr :=
  { Id := 0, Response := false, Opcode := 0, Authoritative := false, Truncated := false,
    RecursionDesired := false, RecursionAvailable := false, Zero := false,
    AuthenticatedData := false, CheckingDisabled := false, Rcode := 0 }

/-- The NAME rule of the end-to-end scenario: pattern `(dns)\.(core)\.(rocks)`, template
`{2}.{1}.{3}`. -/
def scenarioRule : ResponseRule :=
  { Active := true, RuleType := "name".toList,
    Pattern := findLiteralGroups ["dns".toList, "core".toList, "rocks".toList] ".".toList,
    Replacement := "{2}.{1}.{3}".toList, TTL := 0 }

/-- The request of the end-to-end scenario: question `core.dns.rocks`, type A. -/
def scenarioRequest : Msg :=
  { Hdr := zeroHdr, Compress := false,
    Question := [{ Name := "core.dns.rocks".toList, Qtype := TypeA, Qclass := ClassINET }],
    Answer := [], Ns := [], Extra := [] }

/-- An A record with the given owner name, TTL 5 and address 10.0.0.1. -/
def recordA (name : Str) : RR :=
  { Hdr := { Name := name, Rrtype := TypeA, Class := ClassINET, Ttl := 5, Rdlength := 4 },
    Body := .Other [10, 0, 0, 1] }

/-- The upstream response of the end-to-end scenario: question `dns.core.rocks`, type A,
and one A answer owned by `dns.core.rocks`. -/
def scenarioResponse : Msg :=
  { Hdr := { zeroHdr with Response := true }, Compress := false,
    Question := [{ Name := "dns.core.rocks".toList, Qtype := TypeA, Qclass := ClassINET }],
    Answer := [recordA "dns.core.rocks".toList], Ns := [], Extra := [] }

/-- The reverter of the end-to-end scenario, as the caller sets it up after
`NewResponseReverter`. -/
def scenarioReverter : ResponseReverter :=
  { ResponseWriter := okWriter,
    originalQuestion := { Name := "core.dns.rocks".toList, Qtype := TypeA, Qclass := ClassINET },
    ResponseRewrite := true, ResponseRules := [scenarioRule] }

/-- The reverter of the end-to-end scenario with response rewriting switched off. -/
def passthroughReverter : ResponseReverter :=
  { scenarioReverter with ResponseRewrite := false }

/-- A rule whose pattern yields two groups on every name and whose template only has
a placeholder for group 5. -/
def literalTemplateRule : ResponseRule :=
  { Active := true, RuleType := "name".toList,
    Pattern := fun name => [name, name],
    Replacement := "{5}.example".toList, TTL := 0 }

/-- A rule whose first capture group is the literal text `{2}`: pattern
`(\{2\})\.(b)`, template `{1}`. -/
def braceGroupRule : ResponseRule :=
  { Active := true, RuleType := "name".toList,
    Pattern := findLiteralGroups ["{2}".toList, "b".toList] ".".toList,
    Replacement := "{1}".toList, TTL := 0 }

/-- A rule whose template has a placeholder inside braces: pattern `(2)\.(b)`, template
`{1}` between an opening and a closing brace. -/
def nestedTemplateRule : ResponseRule :=
  { Active := true, RuleType := "name".toList,
    Pattern := findLiteralGroups ["2".toList, "b".toList] ".".toList,
    Replacement := lbrace :: ("{1}".toList ++ [rbrace]), TTL := 0 }

/-- A record whose header type is SRV and whose concrete type is not `*dns.SRV`. -/
def mistypedRecord : RR :=
  { Hdr := { Name := "dns.core.rocks".toList, Rrtype := TypeSRV, Class := ClassINET, Ttl := 5,
             Rdlength := 4 },
    Body := .Other [10, 0, 0, 1] }

/-- The response of the end-to-end scenario with a mistyped record as its answer. -/
def mistypedResponse : Msg :=
  { scenarioResponse with Answer := [mistypedRecord] }

/-- The response rule of the SRV test of the repository, configured as
`answer name (.*)\.cluster\.local {1}.domain.uk`, with the replacement as the rule
builder hands it over. -/
def srvTestRule : ResponseRule :=
  { Active := true, RuleType := "name".toList,
    Pattern := findGreedyGroup ".cluster.local".toList,
    Replacement := "{1}.domain.uk.".toList, TTL := 0 }

/-- An SRV record `0 100 100` with the given owner name and target. -/
def recordSRV (name target : Str) : RR :=
  { Hdr := { Name := name, Rrtype := TypeSRV, Class := ClassINET, Ttl := 5, Rdlength := 0 },
    Body := .SRV 0 100 100 target }

/-- The upstream response of the SRV test of the repository. -/
def srvTestResponse : Msg :=
  { Hdr := { zeroHdr with Response := true }, Compress := false,
    Question := [{ Name := "my.cluster.local.".toList, Qtype := TypeSRV, Qclass := ClassINET }],
    Answer := [recordSRV "my.cluster.local.".toList "srv1.my.cluster.local.".toList],
    Ns := [], Extra := [recordA "srv1.my.cluster.local.".toList] }

/-- The reverter of the SRV test with the given rules of the rule table. -/
def srvTestReverter (rules : List RewriteRule) : ResponseReverter :=
  { ResponseWriter := okWriter,
    originalQuestion := { Name := "my.domain.uk.".toList, Qtype := TypeSRV, Qclass := ClassINET },
    ResponseRewrite := true, ResponseRules := rules.map RewriteRule.rule }

/-- A NAME rule that matches the output of the rule of the end-to-end scenario: pattern
`(core)\.(dns)\.(rocks)`, template `{3}.{2}.{1}`. -/
def secondRule : ResponseRule :=
  { Active := true, RuleType := "name".toList,
    Pattern := findLiteralGroups ["core".toList, "dns".toList, "rocks".toList] ".".toList,
    Replacement := "{3}.{2}.{1}".toList, TTL := 0 }

/-- A rule of type "ttl" with the fixed value 300. -/
def ttlRule300 : ResponseRule :=
  { Active := true, RuleType := "ttl".toList, Pattern := fun _ => [], Replacement := [],
    TTL := 300 }

/-- A NAME rule that is not idempotent: pattern `(.*)`, template `{1}.a`. -/
def appendRule : ResponseRule :=
  { Active := true, RuleType := "name".toList, Pattern := findGreedyGroup [],
    Replacement := "{1}.a".toList, TTL := 0 }

/-- The reverter of the end-to-end scenario with the single rule `appendRule`. -/
def appendReverter : ResponseReverter :=
  { scenarioReverter with ResponseRules := [appendRule] }

/-- A store in which every address holds an A record owned by `x.a`. -/
def sharedHeap : Heap := fun _ => recordA "x.a".toList

/-- A response whose single answer record object is also its single extra record
object. -/
def sharedExtraMsg : MsgRef :=
  { Hdr := { zeroHdr with Response := true }, Compress := false,
    Question := [{ Name := "x.a".toList, Qtype := TypeA, Qclass := ClassINET }],
    Answer := [0], Ns := [], Extra := [0] }

/-- A response whose single answer record object is also its single authority record
object. -/
def sharedNsMsg : MsgRef :=
  { Hdr := { zeroHdr with Response := true }, Compress := false,
    Question := [{ Name := "x.a".toList, Qtype := TypeA, Qclass := ClassINET }],
    Answer := [0], Ns := [0], Extra := [] }

/-- A response of pointers with three distinct record objects, two in `Answer` and one in
`Extra`. -/
def distinctMsg : MsgRef :=
  { Hdr := { zeroHdr with Response := true }, Compress := false,
    Question := [{ Name := "dns.core.rocks".toList, Qtype := TypeA, Qclass := ClassINET }],
    Answer := [0, 1], Ns := [], Extra := [2] }

/-- A store whose address 1 holds a record owned by `other.example` and whose other
addresses hold records owned by `dns.core.rocks`. -/
def distinctHeap : Heap :=
  fun p => if p = 1 then recordA "other.example".toList else recordA "dns.core.rocks".toList

/-! ## Lemmas on the rule loop -/

theorem rewriteName_fst (rule : ResponseRule) (name : Str) (b : Bool) :
    (rewriteName rule name b).1 = applyNameRule rule name := by
  unfold rewriteName applyNameRule
  by_cases h : rule.Pattern name = [] <;> simp [h]

theorem rewriteName_snd (rule : ResponseRule) (name : Str) (b : Bool) :
    (rewriteName rule name b).2 = (b || decide (rule.Pattern name ≠ [])) := by
  unfold rewriteName
  by_cases h : rule.Pattern name = [] <;> simp [h]

theorem ruleStep_name (rr : RR) (v : Locals) (rule : ResponseRule) (h : isNameRule rule) :
    ruleStep rr v rule =
      { v with
        name := applyNameRule rule v.name
        isNameRewritten := v.isNameRewritten || decide (rule.Pattern v.name ≠ [])
        srvTarget := if rr.Hdr.Rrtype = TypeSRV then applyNameRule rule v.srvTarget
                     else v.srvTarget
        isSrvTargetRewritten :=
          if rr.Hdr.Rrtype = TypeSRV then
            v.isSrvTargetRewritten || decide (rule.Pattern v.srvTarget ≠ [])
          else v.isSrvTargetRewritten } := by
  have e1 : ∀ (n : Str) (b : Bool),
      rewriteName { rule with RuleType := "name".toList } n b = rewriteName rule n b := by
    intro n b; rfl
  have e2 : ruleStep rr v rule =
      (let p := rewriteName rule v.name v.isNameRewritten
       let v1 : Locals := { v with name := p.1, isNameRewritten := p.2 }
       if rr.Hdr.Rrtype = TypeSRV then
         let q := rewriteName rule v1.srvTarget v1.isSrvTargetRewritten
         { v1 with srvTarget := q.1, isSrvTargetRewritten := q.2 }
       else v1) := by
    rcases h with h | h
    · simp only [ruleStep, h, String.toList]
      simp [e1]
      rfl
    · have h' : rule.RuleType = ['n', 'a', 'm', 'e'] := h
      simp [ruleStep, h']
  rw [e2]
  by_cases hs : rr.Hdr.Rrtype = TypeSRV
  · simp only [hs, if_true, rewriteName_fst, rewriteName_snd]
  · simp only [hs, if_false, rewriteName_fst, rewriteName_snd]

theorem ruleStep_ttl (rr : RR) (v : Locals) (rule : ResponseRule) (h : isTTLRule rule) :
    ruleStep rr v rule = { v with ttl := rule.TTL, isTTLRewritten := true } := by
  unfold isTTLRule at h
  simp [ruleStep, h]

theorem ruleStep_other (rr : RR) (v : Locals) (rule : ResponseRule)
    (h1 : ¬ isNameRule rule) (h2 : ¬ isTTLRule rule) : ruleStep rr v rule = v := by
  unfold isNameRule at h1
  unfold isTTLRule at h2
  push_neg at h1
  have h3 : rule.RuleType ≠ "".toList := h1.1
  simp only [ruleStep, h3, h1.2, h2, if_false]

theorem isTTLRule_not_name (rule : ResponseRule) (h : isTTLRule rule) : ¬ isNameRule rule := by
  unfold isTTLRule at h
  unfold isNameRule
  rw [h]
  decide

theorem foldl_ruleStep (rr : RR) (rules : List ResponseRule) (v : Locals) :
    rules.foldl (ruleStep rr) v =
      { name := applyNameRules rules v.name
        isNameRewritten := v.isNameRewritten || anyNameMatch rules v.name
        srvTarget := if rr.Hdr.Rrtype = TypeSRV then applyNameRules rules v.srvTarget
                     else v.srvTarget
        isSrvTargetRewritten :=
          if rr.Hdr.Rrtype = TypeSRV then
            v.isSrvTargetRewritten || anyNameMatch rules v.srvTarget
          else v.isSrvTargetRewritten
        ttl := ttlAfter rules v.ttl
        isTTLRewritten := v.isTTLRewritten || rules.any (fun rule => decide (isTTLRule rule)) } := by
  induction rules generalizing v with
  | nil => cases v; simp [applyNameRules, anyNameMatch, ttlAfter]
  | cons rule rest ih =>
    rw [List.foldl_cons, ih]
    by_cases hn : isNameRule rule
    · have ht : ¬ isTTLRule rule := fun ht => isTTLRule_not_name rule ht hn
      rw [ruleStep_name rr v rule hn]
      by_cases hs : rr.Hdr.Rrtype = TypeSRV <;>
        simp [applyNameRules, anyNameMatch, ttlAfter, hn, ht, hs, Bool.or_assoc]
    · by_cases ht : isTTLRule rule
      · rw [ruleStep_ttl rr v rule ht]
        simp [applyNameRules, anyNameMatch, ttlAfter, hn, ht]
      · rw [ruleStep_other rr v rule hn ht]
        simp [applyNameRules, anyNameMatch, ttlAfter, hn, ht]

theorem applyNameRules_of_no_match (rules : List ResponseRule) (name : Str)
    (h : anyNameMatch rules name = false) : applyNameRules rules name = name := by
  induction rules generalizing name with
  | nil => rfl
  | cons rule rest ih =>
    by_cases hn : isNameRule rule
    · simp only [anyNameMatch, hn, if_true, Bool.or_eq_false_iff, decide_eq_false_iff_not,
        not_not] at h
      simp only [applyNameRules, hn, if_true]
      have e : applyNameRule rule name = name := by simp [applyNameRule, h.1]
      rw [e] at h ⊢
      exact ih name h.2
    · simp only [anyNameMatch, hn, if_false] at h
      simp only [applyNameRules, hn, if_false]
      exact ih name h

theorem ttlAfter_of_no_ttl (rules : List ResponseRule) (ttl : Nat)
    (h : rules.any (fun rule => decide (isTTLRule rule)) = false) : ttlAfter rules ttl = ttl := by
  induction rules generalizing ttl with
  | nil => rfl
  | cons rule rest ih =>
    simp only [List.any_cons, Bool.or_eq_false_iff, decide_eq_false_iff_not] at h
    simp only [ttlAfter, h.1, if_false]
    exact ih ttl h.2

theorem rewriteResourceRecord_eq (res : Msg) (rr : RR) (r : ResponseReverter) :
    rewriteResourceRecord res rr r =
      if rr.Hdr.Rrtype = TypeSRV ∧ srvTargetOf rr = none then none
      else some (rewrittenRecord r.ResponseRules rr) := by
  obtain ⟨hdr, body⟩ := rr
  obtain ⟨name, rrtype, cls, ttl, rdlen⟩ := hdr
  by_cases hs : rrtype = TypeSRV
  · cases body with
    | SRV priority weight port target =>
      simp only [rewriteResourceRecord, hs, if_true, srvTargetOf, foldl_ruleStep, writeBack,
        rewrittenRecord, Bool.false_or, setSrvTarget]
      by_cases h1 : anyNameMatch r.ResponseRules name = true <;>
      by_cases h2 : r.ResponseRules.any (fun rule => decide (isTTLRule rule)) = true <;>
      by_cases h3 : anyNameMatch r.ResponseRules target = true <;>
      simp_all [applyNameRules_of_no_match, ttlAfter_of_no_ttl]
    | Other rdata =>
      simp [rewriteResourceRecord, hs, srvTargetOf]
  · simp only [rewriteResourceRecord, hs, if_false, foldl_ruleStep, writeBack,
        rewrittenRecord, Bool.false_or, setSrvTarget, false_and]
    by_cases h1 : anyNameMatch r.ResponseRules name = true <;>
    by_cases h2 : r.ResponseRules.any (fun rule => decide (isTTLRule rule)) = true <;>
    cases body <;>
    simp_all [applyNameRules_of_no_match, ttlAfter_of_no_ttl]


theorem rewriteResourceRecord_none_iff (res : Msg) (rr : RR) (r : ResponseReverter) :
    rewriteResourceRecord res rr r = none ↔ ¬ Consistent rr := by
  rw [rewriteResourceRecord_eq]
  unfold Consistent
  by_cases h : rr.Hdr.Rrtype = TypeSRV ∧ srvTargetOf rr = none
  · simp [h]
  · simp only [h, if_false]
    constructor
    · intro h'; cases h'
    · intro h'; exact absurd (by simpa using h') h

theorem rewriteResourceRecord_some (res : Msg) (rr : RR) (r : ResponseReverter)
    (h : Consistent rr) :
    rewriteResourceRecord res rr r = some (rewrittenRecord r.ResponseRules rr) := by
  rw [rewriteResourceRecord_eq]
  have h' : ¬ (rr.Hdr.Rrtype = TypeSRV ∧ srvTargetOf rr = none) := fun ⟨a, b⟩ => h a b
  simp only [h', if_false]

theorem rewriteResourceRecord_some_iff (res : Msg) (rr rr' : RR) (r : ResponseReverter) :
    rewriteResourceRecord res rr r = some rr' ↔
      Consistent rr ∧ rr' = rewrittenRecord r.ResponseRules rr := by
  constructor
  · intro h
    have hc : Consistent rr := by
      by_contra hc
      rw [(rewriteResourceRecord_none_iff res rr r).2 hc] at h
      cases h
    rw [rewriteResourceRecord_some res rr r hc] at h
    exact ⟨hc, (Option.some.inj h).symm⟩
  · rintro ⟨hc, rfl⟩
    exact rewriteResourceRecord_some res rr r hc

theorem ttlAfter_eq_lastTTL (rules : List ResponseRule) (ttl : Nat) :
    ttlAfter rules ttl = lastTTL rules ttl := by
  induction rules generalizing ttl with
  | nil => rfl
  | cons rule rest ih =>
    by_cases ht : isTTLRule rule
    · simp only [ttlAfter, ht, if_true, ih, lastTTL, List.filter_cons, decide_True,
        List.getLast?_cons]
      cases (List.filter (fun rule => decide (isTTLRule rule)) rest).getLast? <;> rfl
    · simp only [ttlAfter, ht, if_false, ih, lastTTL, List.filter_cons, decide_False]
      rfl

theorem rangeRecords_of_all_some (f : RR → Option RR) (l : List RR)
    (h : ∀ rr ∈ l, f rr ≠ none) :
    (rangeRecords f l).2 = true ∧ (rangeRecords f l).1.map some = l.map f := by
  induction l with
  | nil => exact ⟨rfl, rfl⟩
  | cons rr rest ih =>
    have h1 := h rr (List.mem_cons_self _ _)
    have h2 := ih (fun x hx => h x (List.mem_cons_of_mem _ hx))
    cases hf : f rr with
    | none => exact absurd hf h1
    | some rr' =>
      simp only [rangeRecords, hf, List.map_cons, List.cons.injEq, true_and]
      exact ⟨h2.1, by simpa using h2.2⟩

/-! ## Lemmas on `WriteMsg` -/

theorem WriteMsg_question (r : ResponseReverter) (res : Msg) :
    (r.WriteMsg res).res.Question = res.Question.set 0 r.originalQuestion := by
  unfold ResponseReverter.WriteMsg
  cases hq : res.Question with
  | nil => simp [hq]
  | cons q qs =>
    simp only [List.set_cons_zero]
    split_ifs <;> rfl

theorem WriteMsg_handed (r : ResponseReverter) (res : Msg) :
    ∀ m ∈ (r.WriteMsg res).handed, m = (r.WriteMsg res).res := by
  unfold ResponseReverter.WriteMsg
  cases hq : res.Question with
  | nil => simp
  | cons q qs =>
    simp only
    split_ifs <;> simp

theorem WriteMsg_no_rewrite (r : ResponseReverter) (res : Msg)
    (h : r.ResponseRewrite = false) :
    (r.WriteMsg res).res = { res with Question := res.Question.set 0 r.originalQuestion } ∧
    (res.Question ≠ [] →
      (r.WriteMsg res).handed = [(r.WriteMsg res).res] ∧
      (r.WriteMsg res).ret = some (r.ResponseWriter.WriteMsg (r.WriteMsg res).res)) := by
  unfold ResponseReverter.WriteMsg
  cases hq : res.Question with
  | nil =>
    refine ⟨?_, fun hne => absurd rfl hne⟩
    cases res
    simp only [List.set_nil] at hq ⊢
    simp [hq]
  | cons q qs => simp [h]

theorem WriteMsg_rewrite (r : ResponseReverter) (res : Msg) (h : r.ResponseRewrite = true)
    (hq : res.Question ≠ []) (hc : ∀ rr ∈ res.Answer ++ res.Extra, Consistent rr) :
    (r.WriteMsg res).handed = [(r.WriteMsg res).res] ∧
    (r.WriteMsg res).ret = some (r.ResponseWriter.WriteMsg (r.WriteMsg res).res) ∧
    (r.WriteMsg res).res.Answer.map some =
      res.Answer.map (fun rr => rewriteResourceRecord res rr r) ∧
    (r.WriteMsg res).res.Extra.map some =
      res.Extra.map (fun rr => rewriteResourceRecord res rr r) ∧
    (r.WriteMsg res).res.Ns = res.Ns ∧ (r.WriteMsg res).res.Hdr = res.Hdr ∧
    (r.WriteMsg res).res.Compress = res.Compress := by
  have hres : ∀ (m1 m2 : Msg) (rr : RR),
      rewriteResourceRecord m1 rr r = rewriteResourceRecord m2 rr r := by
    intro m1 m2 rr; rfl
  unfold ResponseReverter.WriteMsg
  cases hq' : res.Question with
  | nil => exact absurd hq' hq
  | cons q qs =>
    simp only [h, if_true]
    have ha := rangeRecords_of_all_some
      (fun rr => rewriteResourceRecord { res with Question := r.originalQuestion :: qs } rr r)
      res.Answer
      (fun rr hrr => by
        rw [Ne, rewriteResourceRecord_none_iff, not_not]
        exact hc rr (List.mem_append_left _ hrr))
    simp only [ha.1, if_true]
    have he := rangeRecords_of_all_some
      (fun rr => rewriteResourceRecord
        { res with Question := r.originalQuestion :: qs,
                   Answer := (rangeRecords (fun rr => rewriteResourceRecord
                     { res with Question := r.originalQuestion :: qs } rr r) res.Answer).1 } rr r)
      res.Extra
      (fun rr hrr => by
        rw [Ne, rewriteResourceRecord_none_iff, not_not]
        exact hc rr (List.mem_append_right _ hrr))
    simp only [he.1, if_true, true_and]
    refine ⟨?_, ?_, trivial⟩
    · exact ha.2.trans rfl
    · exact he.2.trans rfl

theorem anyNameMatch_of_forall (rules : List ResponseRule) (name : Str)
    (h : ∀ rule ∈ rules, isNameRule rule → rule.Pattern name = []) :
    anyNameMatch rules name = false := by
  induction rules with
  | nil => rfl
  | cons rule rest ih =>
    have h2 := ih (fun x hx => h x (List.mem_cons_of_mem _ hx))
    by_cases hn : isNameRule rule
    · have h1 := h rule (List.mem_cons_self _ _) hn
      simp [anyNameMatch, hn, h1, applyNameRule, h2]
    · simp [anyNameMatch, hn, h2]

/-! ## Lemmas on `strings.Replace` and on templates -/

theorem replaceScan_of_not_infix (old new : Str) (s : Str) (h : ¬ old <:+: s) :
    replaceScan old new 0 s = s := by
  induction s with
  | nil => rfl
  | cons c cs ih =>
    have h1 : old.isPrefixOf (c :: cs) = false := by
      rw [Bool.eq_false_iff, Ne, List.isPrefixOf_iff_prefix]
      exact fun hp => h hp.isInfix
    have h2 : ¬ old <:+: cs := fun hi => h (hi.trans (List.suffix_cons c cs).isInfix)
    simp only [replaceScan, h1, Bool.false_eq_true, if_false, ih h2]

theorem Replace_of_not_infix (s old new : Str) (h : ¬ old <:+: s) : Replace s old new = s := by
  have hne : old ≠ [] := by
    rintro rfl
    exact h List.nil_infix
  simp only [Replace, hne, if_false]
  exact replaceScan_of_not_infix old new s h

theorem replaceGroups_of_not_infix (groups : List Str) (k : Nat) (s : Str)
    (h : ∀ i, i < groups.length → ¬ groupIndexStr (k + i) <:+: s) :
    replaceGroups k groups s = s := by
  induction groups generalizing k with
  | nil => rfl
  | cons g rest ih =>
    have h0 : ¬ groupIndexStr k <:+: s := by
      simpa using h 0 (by simp)
    rw [replaceGroups, Replace_of_not_infix s _ g h0]
    apply ih
    intro i hi
    have := h (i + 1) (by simpa using hi)
    rwa [show k + (i + 1) = k + 1 + i by omega] at this

theorem digitChar_ne_braces (n : Nat) (h : n < 10) :
    Nat.digitChar n ≠ lbrace ∧ Nat.digitChar n ≠ rbrace := by
  interval_cases n <;> decide

theorem toDigitsCore_no_braces (fuel n : Nat) (ds : List Char)
    (h : ∀ c ∈ ds, c ≠ lbrace ∧ c ≠ rbrace) :
    ∀ c ∈ Nat.toDigitsCore 10 fuel n ds, c ≠ lbrace ∧ c ≠ rbrace := by
  induction fuel generalizing n ds with
  | zero => simpa [Nat.toDigitsCore] using h
  | succ fuel ih =>
    have h' : ∀ c ∈ Nat.digitChar (n % 10) :: ds, c ≠ lbrace ∧ c ≠ rbrace := by
      intro c hc
      rcases List.mem_cons.1 hc with rfl | hc
      · exact digitChar_ne_braces _ (Nat.mod_lt _ (by decide))
      · exact h c hc
    simp only [Nat.toDigitsCore]
    split_ifs
    · exact h'
    · exact ih _ _ h'

theorem Itoa_no_braces (n : Nat) : lbrace ∉ Itoa n ∧ rbrace ∉ Itoa n := by
  have h := toDigitsCore_no_braces (n + 1) n [] (by simp)
  exact ⟨fun hm => (h _ hm).1 rfl, fun hm => (h _ hm).2 rfl⟩

theorem isPrefixOf_sep (sep : Char) (a b rest : Str) (ha : sep ∉ a) (hb : sep ∉ b) :
    (a ++ [sep]).isPrefixOf (b ++ sep :: rest) = decide (a = b) := by
  induction a generalizing b with
  | nil =>
    cases b with
    | nil => simp [List.isPrefixOf]
    | cons c b' =>
      have : sep ≠ c := fun h => hb (h ▸ List.mem_cons_self _ _)
      simp [List.isPrefixOf, this]
  | cons x a' ih =>
    cases b with
    | nil =>
      have : x ≠ sep := fun h => ha (h ▸ List.mem_cons_self _ _)
      simp [List.isPrefixOf, this]
    | cons c b' =>
      have ha' : sep ∉ a' := fun h => ha (List.mem_cons_of_mem _ h)
      have hb' : sep ∉ b' := fun h => hb (List.mem_cons_of_mem _ h)
      by_cases hxc : x = c
      · simp only [List.cons_append, List.isPrefixOf, hxc, beq_self_eq_true, Bool.true_and,
          List.cons.injEq, true_and]
        exact ih b' ha' hb'
      · simp [List.isPrefixOf, hxc]

theorem groupIndexStr_isPrefixOf_braces (i : Nat) (body rest : Str) (hb : rbrace ∉ body) :
    (groupIndexStr i).isPrefixOf (lbrace :: (body ++ rbrace :: rest))
      = decide (body = Itoa i) := by
  have h := isPrefixOf_sep rbrace (Itoa i) body rest (Itoa_no_braces i).2 hb
  have e : (groupIndexStr i).isPrefixOf (lbrace :: (body ++ rbrace :: rest)) =
      (lbrace == lbrace && (Itoa i ++ [rbrace]).isPrefixOf (body ++ rbrace :: rest)) := rfl
  rw [e, h]
  by_cases e : body = Itoa i
  · simp [e]
  · have e' : ¬ Itoa i = body := fun h => e h.symm
    simp [e, e']

theorem groupIndexStr_isPrefixOf_text (i : Nat) (c : Char) (rest : Str) (hc : c ≠ lbrace) :
    (groupIndexStr i).isPrefixOf (c :: rest) = false := by
  have : (lbrace == c) = false := by simp [Ne.symm hc]
  simp [groupIndexStr, List.isPrefixOf, this]

theorem groupIndexStr_length (i : Nat) : (groupIndexStr i).length - 1 = (Itoa i).length + 1 := by
  simp [groupIndexStr]

theorem groupIndexStr_ne_nil (i : Nat) : groupIndexStr i ≠ [] := by
  simp [groupIndexStr]

theorem replaceScan_skip (old new : Str) (xs ys : Str) :
    replaceScan old new xs.length (xs ++ ys) = replaceScan old new 0 ys := by
  induction xs with
  | nil => rfl
  | cons x xs ih => simpa [replaceScan] using ih

theorem replaceScan_plain_run (i : Nat) (new : Str) (xs ys : Str) (h : lbrace ∉ xs) :
    replaceScan (groupIndexStr i) new 0 (xs ++ ys) =
      xs ++ replaceScan (groupIndexStr i) new 0 ys := by
  induction xs with
  | nil => rfl
  | cons x xs ih =>
    have hx : x ≠ lbrace := fun e => h (e ▸ List.mem_cons_self _ _)
    have hxs : lbrace ∉ xs := fun e => h (List.mem_cons_of_mem _ e)
    simp only [List.cons_append, replaceScan, groupIndexStr_isPrefixOf_text i x _ hx,
      Bool.false_eq_true, if_false]
    exact congrArg (x :: ·) (ih hxs)

theorem substituteScan_skip (groups : List Str) (xs ys : Str) :
    substituteScan groups xs.length (xs ++ ys) = substituteScan groups 0 ys := by
  induction xs with
  | nil => rfl
  | cons x xs ih => simpa [substituteScan] using ih

theorem placeholderAt_text (k : Nat) (groups : List Str) (c : Char) (rest : Str)
    (hc : c ≠ lbrace) : placeholderAt k groups (c :: rest) = none := by
  induction groups generalizing k with
  | nil => rfl
  | cons g gs ih =>
    simp only [placeholderAt, groupIndexStr_isPrefixOf_text k c rest hc, Bool.false_eq_true,
      if_false, ih]

theorem placeholderAt_braces (k : Nat) (groups : List Str) (body rest : Str)
    (hb : rbrace ∉ body) :
    (placeholderAt k groups (lbrace :: (body ++ rbrace :: rest)) = none ∧
      holeValue k groups body = none) ∨
    ∃ i g, placeholderAt k groups (lbrace :: (body ++ rbrace :: rest)) = some (i, g) ∧
      holeValue k groups body = some g ∧ body = Itoa i := by
  induction groups generalizing k with
  | nil => left; exact ⟨rfl, rfl⟩
  | cons g gs ih =>
    have hp := groupIndexStr_isPrefixOf_braces k body rest hb
    by_cases e : body = Itoa k
    · right
      refine ⟨k, g, ?_, ?_, e⟩
      · rw [placeholderAt, hp]
        simp [e]
      · simp only [holeValue, e, if_true]
    · have h1 : placeholderAt k (g :: gs) (lbrace :: (body ++ rbrace :: rest)) =
          placeholderAt (k + 1) gs (lbrace :: (body ++ rbrace :: rest)) := by
        rw [placeholderAt, hp]
        simp [e]
      have h2 : holeValue k (g :: gs) body = holeValue (k + 1) gs body := by
        simp only [holeValue, e, if_false]
      rw [h1, h2]
      exact ih (k + 1)

theorem renderPieces_append (ps qs : List Piece) :
    renderPieces (ps ++ qs) = renderPieces ps ++ renderPieces qs := by
  induction ps with
  | nil => rfl
  | cons p ps ih =>
    show p.render ++ renderPieces (ps ++ qs) = (p.render ++ renderPieces ps) ++ renderPieces qs
    rw [ih, List.append_assoc]

theorem renderPieces_text (g : Str) : renderPieces (g.map Piece.text) = g := by
  induction g with
  | nil => rfl
  | cons c cs ih => simp only [List.map_cons, renderPieces, Piece.render, ih]; rfl

theorem renderPieces_braces (body : Str) (ps : List Piece) :
    renderPieces (.braces body :: ps) = lbrace :: (body ++ rbrace :: renderPieces ps) := by
  simp [renderPieces, Piece.render]

theorem replaceScan_braces (i : Nat) (new body rest : Str)
    (hl : lbrace ∉ body) (hr : rbrace ∉ body) :
    replaceScan (groupIndexStr i) new 0 (lbrace :: (body ++ rbrace :: rest)) =
      if body = Itoa i then new ++ replaceScan (groupIndexStr i) new 0 rest
      else lbrace :: (body ++ rbrace :: replaceScan (groupIndexStr i) new 0 rest) := by
  rw [replaceScan, groupIndexStr_isPrefixOf_braces i body rest hr]
  by_cases e : body = Itoa i
  · simp only [e, decide_True, if_true, groupIndexStr_length]
    have h := replaceScan_skip (groupIndexStr i) new (Itoa i ++ [rbrace]) rest
    simpa using h
  · simp only [e, decide_False, Bool.false_eq_true, if_false]
    rw [replaceScan_plain_run i new body _ hl]
    have hne : rbrace ≠ lbrace := by decide
    simp only [replaceScan, groupIndexStr_isPrefixOf_text i rbrace _ hne, Bool.false_eq_true,
      if_false]

theorem substituteScan_plain_run (groups : List Str) (xs ys : Str) (h : lbrace ∉ xs) :
    substituteScan groups 0 (xs ++ ys) = xs ++ substituteScan groups 0 ys := by
  induction xs with
  | nil => rfl
  | cons x xs ih =>
    have hx : x ≠ lbrace := fun e => h (e ▸ List.mem_cons_self _ _)
    have hxs : lbrace ∉ xs := fun e => h (List.mem_cons_of_mem _ e)
    simp only [List.cons_append, substituteScan, placeholderAt_text 0 groups x _ hx]
    exact congrArg (x :: ·) (ih hxs)

theorem substituteScan_braces (groups : List Str) (body rest : Str)
    (hl : lbrace ∉ body) (hr : rbrace ∉ body) :
    substituteScan groups 0 (lbrace :: (body ++ rbrace :: rest)) =
      match holeValue 0 groups body with
      | some g => g ++ substituteScan groups 0 rest
      | none => lbrace :: (body ++ rbrace :: substituteScan groups 0 rest) := by
  rw [substituteScan]
  rcases placeholderAt_braces 0 groups body rest hr with ⟨h1, h2⟩ | ⟨i, g, h1, h2, h3⟩
  · rw [h1, h2]
    simp only
    rw [substituteScan_plain_run groups body _ hl]
    have hne : rbrace ≠ lbrace := by decide
    simp only [substituteScan, placeholderAt_text 0 groups rbrace _ hne]
  · rw [h1, h2]
    simp only [groupIndexStr_length]
    have h := substituteScan_skip groups (body ++ [rbrace]) rest
    rw [h3] at h ⊢
    simpa using h

theorem replaceScan_pieces (k : Nat) (g : Str) (ps : List Piece) (hps : ∀ p ∈ ps, p.Plain) :
    replaceScan (groupIndexStr k) g 0 (renderPieces ps) = renderPieces (fillPieces k [g] ps) := by
  induction ps with
  | nil => rfl
  | cons p ps ih =>
    have ih' := ih (fun q hq => hps q (List.mem_cons_of_mem _ hq))
    have hp := hps p (List.mem_cons_self _ _)
    cases p with
    | text c =>
      have hc : c ≠ lbrace := hp
      show replaceScan (groupIndexStr k) g 0 (c :: renderPieces ps) = _
      simp only [replaceScan, groupIndexStr_isPrefixOf_text k c _ hc, Bool.false_eq_true,
        if_false, ih', fillPieces, renderPieces, Piece.render]
      rfl
    | braces body =>
      have hb : lbrace ∉ body ∧ rbrace ∉ body := hp
      rw [renderPieces_braces, replaceScan_braces k g body _ hb.1 hb.2, ih']
      by_cases e : body = Itoa k
      · simp only [e, if_true, fillPieces, holeValue, renderPieces_append, renderPieces_text]
      · simp only [e, if_false, fillPieces, holeValue, renderPieces_braces]

theorem fillPieces_text_append (k : Nat) (groups : List Str) (g : Str) (ps : List Piece) :
    fillPieces k groups (g.map Piece.text ++ ps) = g.map Piece.text ++ fillPieces k groups ps := by
  induction g with
  | nil => rfl
  | cons c cs ih =>
    show fillPieces k groups (Piece.text c :: (cs.map Piece.text ++ ps)) = _
    rw [fillPieces, ih]
    rfl

theorem fillPieces_comp (k : Nat) (g : Str) (rest : List Str) (ps : List Piece) :
    fillPieces (k + 1) rest (fillPieces k [g] ps) = fillPieces k (g :: rest) ps := by
  induction ps with
  | nil => rfl
  | cons p ps ih =>
    cases p with
    | text c => simp only [fillPieces, ih]
    | braces body =>
      by_cases e : body = Itoa k
      · simp only [fillPieces, holeValue, e, if_true, fillPieces_text_append, ih]
      · simp only [fillPieces, holeValue, e, if_false, ih]

theorem fillPieces_plain (k : Nat) (groups : List Str) (ps : List Piece)
    (hg : ∀ g ∈ groups, lbrace ∉ g) (hps : ∀ p ∈ ps, p.Plain) :
    ∀ p ∈ fillPieces k groups ps, p.Plain := by
  have hv : ∀ (gs : List Str) (j : Nat) (body g : Str), (∀ g ∈ gs, lbrace ∉ g) →
      holeValue j gs body = some g → lbrace ∉ g := by
    intro gs
    induction gs with
    | nil => intro j body g _ h; cases h
    | cons g0 gs ih =>
      intro j body g hgs h
      by_cases e : body = Itoa j
      · simp only [holeValue, e, if_true, Option.some.injEq] at h
        exact h ▸ hgs g0 (List.mem_cons_self _ _)
      · simp only [holeValue, e, if_false] at h
        exact ih (j + 1) body g (fun x hx => hgs x (List.mem_cons_of_mem _ hx)) h
  induction ps with
  | nil => intro p hp; cases hp
  | cons q ps ih =>
    have ih' := ih (fun x hx => hps x (List.mem_cons_of_mem _ hx))
    have hq := hps q (List.mem_cons_self _ _)
    intro p hp
    cases q with
    | text c =>
      simp only [fillPieces, List.mem_cons] at hp
      rcases hp with rfl | hp
      · exact hq
      · exact ih' p hp
    | braces body =>
      cases hv' : holeValue k groups body with
      | none =>
        simp only [fillPieces, hv', List.mem_cons] at hp
        rcases hp with rfl | hp
        · exact hq
        · exact ih' p hp
      | some g =>
        simp only [fillPieces, hv', List.mem_append, List.mem_map] at hp
        rcases hp with ⟨c, hc, rfl⟩ | hp
        · have hl := hv groups k body g hg hv'
          show c ≠ lbrace
          exact fun e => hl (e ▸ hc)
        · exact ih' p hp

theorem replaceGroups_pieces (groups : List Str) (k : Nat) (ps : List Piece)
    (hg : ∀ g ∈ groups, lbrace ∉ g) (hps : ∀ p ∈ ps, p.Plain) :
    replaceGroups k groups (renderPieces ps) = renderPieces (fillPieces k groups ps) := by
  induction groups generalizing k ps with
  | nil =>
    have e : ∀ qs : List Piece, fillPieces k [] qs = qs := by
      intro qs
      induction qs with
      | nil => rfl
      | cons q qs ih => cases q <;> simp only [fillPieces, holeValue, ih]
    rw [e]; rfl
  | cons g rest ih =>
    have hg1 : ∀ x ∈ [g], lbrace ∉ x := by
      intro x hx
      rw [List.mem_singleton] at hx
      exact hx ▸ hg g (List.mem_cons_self _ _)
    have hrest : ∀ x ∈ rest, lbrace ∉ x := fun x hx => hg x (List.mem_cons_of_mem _ hx)
    rw [replaceGroups]
    simp only [Replace, groupIndexStr_ne_nil, if_false]
    rw [replaceScan_pieces k g ps hps,
      ih (k + 1) (fillPieces k [g] ps) hrest (fillPieces_plain k [g] ps hg1 hps),
      fillPieces_comp]

theorem substituteScan_pieces (groups : List Str) (ps : List Piece)
    (hps : ∀ p ∈ ps, p.Plain) :
    substituteScan groups 0 (renderPieces ps) = renderPieces (fillPieces 0 groups ps) := by
  induction ps with
  | nil => rfl
  | cons p ps ih =>
    have ih' := ih (fun q hq => hps q (List.mem_cons_of_mem _ hq))
    have hp := hps p (List.mem_cons_self _ _)
    cases p with
    | text c =>
      have hc : c ≠ lbrace := hp
      show substituteScan groups 0 (c :: renderPieces ps) = _
      simp only [substituteScan, placeholderAt_text 0 groups c _ hc, ih', fillPieces,
        renderPieces, Piece.render]
      rfl
    | braces body =>
      have hb : lbrace ∉ body ∧ rbrace ∉ body := hp
      rw [renderPieces_braces, substituteScan_braces groups body _ hb.1 hb.2, ih']
      cases hv : holeValue 0 groups body with
      | none => simp only [fillPieces, hv, renderPieces_braces]
      | some g => simp only [fillPieces, hv, renderPieces_append, renderPieces_text]

theorem wellBraced_pieces (s : Str) :
    (wellBraced false s = true → ∃ ps : List Piece, (∀ p ∈ ps, p.Plain) ∧ renderPieces ps = s) ∧
    (wellBraced true s = true → ∃ (body rest : Str) (ps : List Piece),
      s = body ++ rbrace :: rest ∧ lbrace ∉ body ∧ rbrace ∉ body ∧
      (∀ p ∈ ps, p.Plain) ∧ renderPieces ps = rest) := by
  induction s with
  | nil =>
    refine ⟨fun _ => ⟨[], by simp, rfl⟩, fun h => ?_⟩
    simp [wellBraced] at h
  | cons c cs ih =>
    constructor
    · intro h
      by_cases hc : c = lbrace
      · simp only [wellBraced, hc, if_true] at h
        obtain ⟨body, rest, ps, e, hl, hr, hps, hrender⟩ := ih.2 h
        refine ⟨.braces body :: ps, ?_, ?_⟩
        · intro p hp
          rcases List.mem_cons.1 hp with rfl | hp
          · exact ⟨hl, hr⟩
          · exact hps p hp
        · rw [renderPieces_braces, hrender, hc, e]
      · simp only [wellBraced, hc, if_false] at h
        obtain ⟨ps, hps, hrender⟩ := ih.1 h
        refine ⟨.text c :: ps, ?_, ?_⟩
        · intro p hp
          rcases List.mem_cons.1 hp with rfl | hp
          · exact hc
          · exact hps p hp
        · show [c] ++ renderPieces ps = c :: cs
          rw [hrender]; rfl
    · intro h
      by_cases hc : c = lbrace
      · simp [wellBraced, hc] at h
      · by_cases hc' : c = rbrace
        · simp only [wellBraced, hc, hc', if_false, if_true] at h
          obtain ⟨ps, hps, hrender⟩ := ih.1 h
          exact ⟨[], cs, ps, by simp [hc'], by simp, by simp, hps, hrender⟩
        · simp only [wellBraced, hc, hc', if_false] at h
          obtain ⟨body, rest, ps, e, hl, hr, hps, hrender⟩ := ih.2 h
          refine ⟨c :: body, rest, ps, by simp [e], ?_, ?_, hps, hrender⟩
          · intro hm
            rcases List.mem_cons.1 hm with e' | hm
            · exact hc e'.symm
            · exact hl hm
          · intro hm
            rcases List.mem_cons.1 hm with e' | hm
            · exact hc' e'.symm
            · exact hr hm

/-! ## Lemmas on panics, on rule lists and on the shape of records -/

theorem rangeRecords_snd (f : RR → Option RR) (l : List RR) :
    (rangeRecords f l).2 = true ↔ ∀ rr ∈ l, f rr ≠ none := by
  induction l with
  | nil => simp [rangeRecords]
  | cons rr rest ih =>
    cases hf : f rr with
    | none =>
      simp only [rangeRecords, hf, Bool.false_eq_true, false_iff]
      intro h
      exact h rr (List.mem_cons_self _ _) hf
    | some rr' =>
      simp only [rangeRecords, hf, ih, List.mem_cons, forall_eq_or_imp, ne_eq, not_false_eq_true,
        true_and, reduceCtorEq]

theorem rangeRecords_consistent (res : Msg) (r : ResponseReverter) (l : List RR) :
    (rangeRecords (fun rr => rewriteResourceRecord res rr r) l).2 = true ↔
      ∀ rr ∈ l, Consistent rr := by
  rw [rangeRecords_snd]
  constructor
  · intro h rr hrr
    have := h rr hrr
    rwa [Ne, rewriteResourceRecord_none_iff, not_not] at this
  · intro h rr hrr
    rw [Ne, rewriteResourceRecord_none_iff, not_not]
    exact h rr hrr

theorem WriteMsg_eq (r : ResponseReverter) (res : Msg) :
    r.WriteMsg res =
      if res.Question = [] then { res := res, handed := [], ret := none }
      else if r.ResponseRewrite = true then
        if (rangeRecords (fun rr => rewriteResourceRecord res rr r) res.Answer).2 = true then
          if (rangeRecords (fun rr => rewriteResourceRecord res rr r) res.Extra).2 = true then
            { res := { res with
                Question := res.Question.set 0 r.originalQuestion
                Answer := (rangeRecords (fun rr => rewriteResourceRecord res rr r) res.Answer).1
                Extra := (rangeRecords (fun rr => rewriteResourceRecord res rr r) res.Extra).1 }
              handed := [{ res with
                Question := res.Question.set 0 r.originalQuestion
                Answer := (rangeRecords (fun rr => rewriteResourceRecord res rr r) res.Answer).1
                Extra := (rangeRecords (fun rr => rewriteResourceRecord res rr r) res.Extra).1 }]
              ret := some (r.ResponseWriter.WriteMsg { res with
                Question := res.Question.set 0 r.originalQuestion
                Answer := (rangeRecords (fun rr => rewriteResourceRecord res rr r) res.Answer).1
                Extra := (rangeRecords (fun rr => rewriteResourceRecord res rr r) res.Extra).1 }) }
          else
            { res := { res with
                Question := res.Question.set 0 r.originalQuestion
                Answer := (rangeRecords (fun rr => rewriteResourceRecord res rr r) res.Answer).1
                Extra := (rangeRecords (fun rr => rewriteResourceRecord res rr r) res.Extra).1 }
              handed := [], ret := none }
        else
          { res := { res with
              Question := res.Question.set 0 r.originalQuestion
              Answer := (rangeRecords (fun rr => rewriteResourceRecord res rr r) res.Answer).1 }
            handed := [], ret := none }
      else
        { res := { res with Question := res.Question.set 0 r.originalQuestion }
          handed := [{ res with Question := res.Question.set 0 r.originalQuestion }]
          ret := some (r.ResponseWriter.WriteMsg
            { res with Question := res.Question.set 0 r.originalQuestion }) } := by
  have hg : ∀ m : Msg, (fun rr => rewriteResourceRecord m rr r) =
      (fun rr => rewriteResourceRecord res rr r) := fun _ => rfl
  unfold ResponseReverter.WriteMsg
  cases hq : res.Question with
  | nil => simp
  | cons q qs =>
    simp only [hg, reduceCtorEq, if_false, List.set_cons_zero]

theorem WriteMsg_ret_none_iff (r : ResponseReverter) (res : Msg) :
    (r.WriteMsg res).ret = none ↔
      res.Question = [] ∨
      (r.ResponseRewrite = true ∧ ∃ rr ∈ res.Answer ++ res.Extra, ¬ Consistent rr) := by
  rw [WriteMsg_eq]
  by_cases hq : res.Question = []
  · simp [hq]
  by_cases hrw : r.ResponseRewrite = true
  swap
  · simp [hq, hrw]
  by_cases ha : ∀ rr ∈ res.Answer, Consistent rr
  swap
  · have ha' : ¬ (rangeRecords (fun rr => rewriteResourceRecord res rr r) res.Answer).2 = true :=
      fun h => ha ((rangeRecords_consistent res r res.Answer).1 h)
    rw [if_neg hq, if_pos hrw, if_neg ha']
    simp only [hq, hrw, false_or, true_and, true_iff]
    push_neg at ha
    obtain ⟨rr, hrr, hn⟩ := ha
    exact ⟨rr, List.mem_append_left _ hrr, hn⟩
  have ha' := (rangeRecords_consistent res r res.Answer).2 ha
  by_cases he : ∀ rr ∈ res.Extra, Consistent rr
  swap
  · have he' : ¬ (rangeRecords (fun rr => rewriteResourceRecord res rr r) res.Extra).2 = true :=
      fun h => he ((rangeRecords_consistent res r res.Extra).1 h)
    rw [if_neg hq, if_pos hrw, if_pos ha', if_neg he']
    simp only [hq, hrw, false_or, true_and, true_iff]
    push_neg at he
    obtain ⟨rr, hrr, hn⟩ := he
    exact ⟨rr, List.mem_append_right _ hrr, hn⟩
  have he' := (rangeRecords_consistent res r res.Extra).2 he
  rw [if_neg hq, if_pos hrw, if_pos ha', if_pos he']
  simp only [hq, hrw, false_or, true_and, reduceCtorEq, false_iff, not_exists, not_and, not_not]
  intro rr hrr
  rcases List.mem_append.1 hrr with h | h
  · exact ha rr h
  · exact he rr h

theorem WriteMsg_ret_some (r : ResponseReverter) (res : Msg) (e : GoError)
    (h : (r.WriteMsg res).ret = some e) :
    (r.WriteMsg res).handed = [(r.WriteMsg res).res] ∧
    e = r.ResponseWriter.WriteMsg (r.WriteMsg res).res := by
  rw [WriteMsg_eq] at h ⊢
  split_ifs at h ⊢ <;> simp_all

theorem WriteMsg_ret_none (r : ResponseReverter) (res : Msg)
    (h : (r.WriteMsg res).ret = none) : (r.WriteMsg res).handed = [] := by
  rw [WriteMsg_eq] at h ⊢
  split_ifs at h ⊢ <;> simp_all

theorem rewriteResourceRecord_congr (res : Msg) (rr : RR) (r1 r2 : ResponseReverter)
    (h : ∀ v, r1.ResponseRules.foldl (ruleStep rr) v = r2.ResponseRules.foldl (ruleStep rr) v) :
    rewriteResourceRecord res rr r1 = rewriteResourceRecord res rr r2 := by
  simp only [rewriteResourceRecord, h]

theorem foldl_ruleStep_congr (rr : RR) (l1 l2 : List ResponseRule)
    (h : List.Forall₂ (fun a b => ∀ v, ruleStep rr v a = ruleStep rr v b) l1 l2) :
    ∀ v, l1.foldl (ruleStep rr) v = l2.foldl (ruleStep rr) v := by
  induction h with
  | nil => intro v; rfl
  | cons hab _ ih =>
    intro v
    simp only [List.foldl_cons, hab v, ih]

theorem ruleStep_sameButActive (rr : RR) (v : Locals) (a b : ResponseRule)
    (h : SameButActive a b) : ruleStep rr v a = ruleStep rr v b := by
  obtain ⟨aa, at_, ap, ar, attl⟩ := a
  obtain ⟨ba, bt, bp, br, bttl⟩ := b
  obtain ⟨h1, h2, h3, h4⟩ := h
  simp only at h1 h2 h3 h4
  subst h1 h2 h3 h4
  simp only [ruleStep, rewriteName]
  split_ifs <;> rfl

theorem ruleStep_default (rr : RR) (v : Locals) (rule : ResponseRule)
    (h : rule.RuleType = []) :
    ruleStep rr v rule = ruleStep rr v { rule with RuleType := "name".toList } := by
  have h1 : isNameRule rule := Or.inl h
  have h2 : isNameRule { rule with RuleType := "name".toList } := Or.inr rfl
  rw [ruleStep_name rr v rule h1, ruleStep_name rr v _ h2]
  rfl

theorem applyNameRules_append (l1 l2 : List ResponseRule) (name : Str) :
    applyNameRules (l1 ++ l2) name = applyNameRules l2 (applyNameRules l1 name) := by
  induction l1 generalizing name with
  | nil => rfl
  | cons rule rest ih =>
    show applyNameRules (rule :: (rest ++ l2)) name = _
    by_cases h : isNameRule rule
    · simp only [applyNameRules, h, if_true]
      exact ih _
    · simp only [applyNameRules, h, if_false]
      exact ih _

theorem ttlAfter_append (l1 l2 : List ResponseRule) (ttl : Nat) :
    ttlAfter (l1 ++ l2) ttl = ttlAfter l2 (ttlAfter l1 ttl) := by
  induction l1 generalizing ttl with
  | nil => rfl
  | cons rule rest ih =>
    show ttlAfter (rule :: (rest ++ l2)) ttl = _
    by_cases h : isTTLRule rule
    · simp only [ttlAfter, h, if_true]
      exact ih _
    · simp only [ttlAfter, h, if_false]
      exact ih _

theorem rewrittenRecord_append (l1 l2 : List ResponseRule) (rr : RR) :
    rewrittenRecord (l1 ++ l2) rr = rewrittenRecord l2 (rewrittenRecord l1 rr) := by
  obtain ⟨hdr, body⟩ := rr
  cases body with
  | SRV p w port target =>
    by_cases hs : hdr.Rrtype = TypeSRV
    · simp [rewrittenRecord, applyNameRules_append, ttlAfter_append, hs]
    · simp [rewrittenRecord, applyNameRules_append, ttlAfter_append, hs]
  | Other rdata => simp [rewrittenRecord, applyNameRules_append, ttlAfter_append]

theorem consistent_rewrittenRecord (rules : List ResponseRule) (rr : RR) :
    Consistent (rewrittenRecord rules rr) ↔ Consistent rr := by
  obtain ⟨hdr, body⟩ := rr
  cases body <;> simp [Consistent, rewrittenRecord, srvTargetOf]

theorem sameShape_rewrittenRecord (rules : List ResponseRule) (rr : RR) :
    SameShape rr (rewrittenRecord rules rr) := by
  obtain ⟨hdr, body⟩ := rr
  cases body with
  | SRV p w port target =>
    refine ⟨rfl, rfl, rfl, ?_, ?_⟩
    · intro hs
      have hs' : ¬ hdr.Rrtype = TypeSRV := hs
      simp [rewrittenRecord, hs']
    · simp [rewrittenRecord]
  | Other rdata =>
    refine ⟨rfl, rfl, rfl, fun _ => rfl, ?_⟩
    simp [rewrittenRecord]

theorem sameShape_refl (rr : RR) : SameShape rr rr := by
  obtain ⟨hdr, body⟩ := rr
  cases body <;> simp [SameShape]

theorem rangeRecords_forall₂ (R : RR → RR → Prop) (f : RR → Option RR) (l : List RR)
    (hf : ∀ a b, f a = some b → R a b) (hr : ∀ a, R a a) :
    List.Forall₂ R l (rangeRecords f l).1 := by
  induction l with
  | nil => exact List.Forall₂.nil
  | cons rr rest ih =>
    cases h : f rr with
    | none =>
      simp only [rangeRecords, h]
      exact List.Forall₂.cons (hr rr) (List.forall₂_same.2 (fun a _ => hr a))
    | some rr' =>
      simp only [rangeRecords, h]
      exact List.Forall₂.cons (hf rr rr' h) ih

theorem rangeRecords_sameShape (res : Msg) (r : ResponseReverter) (l : List RR) :
    List.Forall₂ SameShape l (rangeRecords (fun rr => rewriteResourceRecord res rr r) l).1 := by
  apply rangeRecords_forall₂ SameShape _ l _ sameShape_refl
  intro a b h
  rw [rewriteResourceRecord_some_iff] at h
  rw [h.2]
  exact sameShape_rewrittenRecord _ a

theorem forall₂_sameShape_refl (l : List RR) : List.Forall₂ SameShape l l :=
  List.forall₂_same.2 (fun a _ => sameShape_refl a)

/-! ## Lemmas on messages of pointers -/

theorem rewriteResourceRecordAt_eq (res : Msg) (p : Nat) (r : ResponseReverter) (h : Heap) :
    rewriteResourceRecordAt res p r h = rewriteAt r.ResponseRules p h := by
  unfold rewriteResourceRecordAt rewriteAt
  by_cases hc : Consistent (h p)
  · rw [rewriteResourceRecord_some res (h p) r hc, if_pos hc]
  · rw [(rewriteResourceRecord_none_iff res (h p) r).2 hc, if_neg hc]

theorem rewriteResourceRecordAt_fun (M : Heap → Msg) (r : ResponseReverter) :
    (fun p h' => rewriteResourceRecordAt (M h') p r h') = rewriteAt r.ResponseRules := by
  funext p h'
  exact rewriteResourceRecordAt_eq _ p r h'

theorem sameShape_trans (a b c : RR) (h1 : SameShape a b) (h2 : SameShape b c) :
    SameShape a c := by
  obtain ⟨ah, ab⟩ := a
  obtain ⟨bh, bb⟩ := b
  obtain ⟨ch, cb⟩ := c
  obtain ⟨e1, e2, e3, e4, e5⟩ := h1
  obtain ⟨f1, f2, f3, f4, f5⟩ := h2
  simp only at e1 e2 e3 e4 e5 f1 f2 f3 f4 f5
  refine ⟨f1.trans e1, f2.trans e2, f3.trans e3, ?_, ?_⟩
  · intro hs
    simp only at hs ⊢
    rw [f4 (by rw [e1]; exact hs), e4 hs]
  · cases ab <;> cases bb <;> cases cb <;> simp_all

theorem consistent_update (rules : List ResponseRule) (h : Heap) (p q : Nat) :
    Consistent (Function.update h p (rewrittenRecord rules (h p)) q) ↔ Consistent (h q) := by
  by_cases hqp : q = p
  · subst hqp
    rw [Function.update_same, consistent_rewrittenRecord]
  · rw [Function.update_noteq hqp]

theorem rangeRefs_cons_pos (rules : List ResponseRule) (p : Nat) (rest : List Nat) (h : Heap)
    (hc : Consistent (h p)) :
    rangeRefs (rewriteAt rules) (p :: rest) h =
      rangeRefs (rewriteAt rules) rest (Function.update h p (rewrittenRecord rules (h p))) := by
  simp only [rangeRefs, rewriteAt, hc, if_true]

theorem rangeRefs_cons_neg (rules : List ResponseRule) (p : Nat) (rest : List Nat) (h : Heap)
    (hc : ¬ Consistent (h p)) :
    rangeRefs (rewriteAt rules) (p :: rest) h = (h, false) := by
  simp only [rangeRefs, rewriteAt, hc, if_false]

theorem rangeRefs_frame (rules : List ResponseRule) (l : List Nat) (h : Heap) :
    ∀ q, q ∉ l → (rangeRefs (rewriteAt rules) l h).1 q = h q := by
  induction l generalizing h with
  | nil => intro q _; rfl
  | cons p rest ih =>
    intro q hq
    have hqp : q ≠ p := fun e => hq (e ▸ List.mem_cons_self _ _)
    have hqr : q ∉ rest := fun e => hq (List.mem_cons_of_mem _ e)
    by_cases hc : Consistent (h p)
    · rw [rangeRefs_cons_pos rules p rest h hc, ih _ q hqr, Function.update_noteq hqp]
    · rw [rangeRefs_cons_neg rules p rest h hc]

theorem rangeRefs_shape (rules : List ResponseRule) (l : List Nat) (h : Heap) :
    ∀ q, SameShape (h q) ((rangeRefs (rewriteAt rules) l h).1 q) := by
  induction l generalizing h with
  | nil => intro q; exact sameShape_refl _
  | cons p rest ih =>
    intro q
    by_cases hc : Consistent (h p)
    · rw [rangeRefs_cons_pos rules p rest h hc]
      refine sameShape_trans _ _ _ ?_ (ih _ q)
      by_cases hqp : q = p
      · subst hqp
        rw [Function.update_same]
        exact sameShape_rewrittenRecord _ _
      · rw [Function.update_noteq hqp]
        exact sameShape_refl _
    · rw [rangeRefs_cons_neg rules p rest h hc]
      exact sameShape_refl _

theorem rangeRefs_snd (rules : List ResponseRule) (l : List Nat) (h : Heap) :
    (rangeRefs (rewriteAt rules) l h).2 = true ↔ ∀ p ∈ l, Consistent (h p) := by
  induction l generalizing h with
  | nil => simp [rangeRefs]
  | cons p rest ih =>
    by_cases hc : Consistent (h p)
    · rw [rangeRefs_cons_pos rules p rest h hc, ih]
      simp only [List.mem_cons, forall_eq_or_imp, hc, true_and]
      exact forall₂_congr (fun q _ => consistent_update rules h p q)
    · rw [rangeRefs_cons_neg rules p rest h hc]
      simp only [Bool.false_eq_true, List.mem_cons, forall_eq_or_imp, hc, false_and]

theorem rangeRefs_iterate (rules : List ResponseRule) (l : List Nat) (h : Heap)
    (hc : ∀ p ∈ l, Consistent (h p)) :
    ∀ q, (rangeRefs (rewriteAt rules) l h).1 q = (rewrittenRecord rules)^[l.count q] (h q) := by
  induction l generalizing h with
  | nil => intro q; rfl
  | cons p rest ih =>
    intro q
    have hp : Consistent (h p) := hc p (List.mem_cons_self _ _)
    rw [rangeRefs_cons_pos rules p rest h hp,
      ih _ (fun x hx => (consistent_update rules h p x).2 (hc x (List.mem_cons_of_mem _ hx)))]
    by_cases hqp : q = p
    · subst hqp
      rw [Function.update_same, List.count_cons_self, Function.iterate_succ_apply]
    · rw [Function.update_noteq hqp, List.count_cons_of_ne hqp]

theorem rangeRefs_append (f : Nat → Heap → Option Heap) (l1 l2 : List Nat) (h : Heap) :
    rangeRefs f (l1 ++ l2) h =
      if (rangeRefs f l1 h).2 = true then rangeRefs f l2 (rangeRefs f l1 h).1
      else rangeRefs f l1 h := by
  induction l1 generalizing h with
  | nil => simp [rangeRefs]
  | cons p rest ih =>
    show rangeRefs f (p :: (rest ++ l2)) h = _
    cases hf : f p h with
    | none => simp [rangeRefs, hf]
    | some h' => simp only [rangeRefs, hf, ih]

theorem WriteMsgRef_eq (r : ResponseReverter) (res : MsgRef) (h : Heap) :
    r.WriteMsgRef res h =
      if res.Question = [] then { res := res, heap := h, handed := [], ret := none }
      else if r.ResponseRewrite = true then
        if (rangeRefs (rewriteAt r.ResponseRules) (res.Answer ++ res.Extra) h).2 = true then
          { res := { res with Question := res.Question.set 0 r.originalQuestion }
            heap := (rangeRefs (rewriteAt r.ResponseRules) (res.Answer ++ res.Extra) h).1
            handed := [MsgRef.load { res with Question := res.Question.set 0 r.originalQuestion }
              (rangeRefs (rewriteAt r.ResponseRules) (res.Answer ++ res.Extra) h).1]
            ret := some (r.ResponseWriter.WriteMsg
              (MsgRef.load { res with Question := res.Question.set 0 r.originalQuestion }
                (rangeRefs (rewriteAt r.ResponseRules) (res.Answer ++ res.Extra) h).1)) }
        else
          { res := { res with Question := res.Question.set 0 r.originalQuestion }
            heap := (rangeRefs (rewriteAt r.ResponseRules) (res.Answer ++ res.Extra) h).1
            handed := [], ret := none }
      else
        { res := { res with Question := res.Question.set 0 r.originalQuestion }
          heap := h
          handed := [MsgRef.load { res with Question := res.Question.set 0 r.originalQuestion } h]
          ret := some (r.ResponseWriter.WriteMsg
            (MsgRef.load { res with Question := res.Question.set 0 r.originalQuestion } h)) } := by
  unfold ResponseReverter.WriteMsgRef
  cases hq : res.Question with
  | nil => simp
  | cons q qs =>
    simp only [rewriteResourceRecordAt_fun, reduceCtorEq, if_false, List.set_cons_zero,
      rangeRefs_append]
    split_ifs <;> rfl

theorem map_iterate_of_nodup (F : RR → RR) (l l' : List Nat) (h h' : Heap)
    (hh : ∀ q, h' q = F^[l.count q] (h q)) (hd : l.Nodup) (hsub : ∀ p ∈ l', p ∈ l) :
    l'.map h' = (l'.map h).map F := by
  rw [List.map_map]
  apply List.map_congr_left
  intro p hp
  rw [hh p, List.count_eq_one_of_mem hd (hsub p hp)]
  rfl

theorem rangeRecords_map_of_nodup (m : Msg) (r : ResponseReverter) (l : List Nat) (h : Heap)
    (hd : l.Nodup) :
    rangeRecords (fun rr => rewriteResourceRecord m rr r) (l.map h) =
      (l.map (rangeRefs (rewriteAt r.ResponseRules) l h).1,
        (rangeRefs (rewriteAt r.ResponseRules) l h).2) := by
  induction l generalizing h with
  | nil => rfl
  | cons p rest ih =>
    have hp : p ∉ rest := (List.nodup_cons.1 hd).1
    have hrest : rest.Nodup := (List.nodup_cons.1 hd).2
    by_cases hc : Consistent (h p)
    · have hmap : rest.map (Function.update h p (rewrittenRecord r.ResponseRules (h p))) =
          rest.map h := by
        apply List.map_congr_left
        intro q hq
        have hqp : q ≠ p := fun e => hp (e ▸ hq)
        exact Function.update_noteq hqp _ _
      have ih' := ih (Function.update h p (rewrittenRecord r.ResponseRules (h p))) hrest
      rw [hmap] at ih'
      rw [rangeRefs_cons_pos r.ResponseRules p rest h hc]
      simp only [List.map_cons, rangeRecords, rewriteResourceRecord_some m (h p) r hc, ih']
      rw [rangeRefs_frame r.ResponseRules rest _ p hp, Function.update_same]
    · rw [rangeRefs_cons_neg r.ResponseRules p rest h hc]
      simp only [List.map_cons, rangeRecords, (rewriteResourceRecord_none_iff m (h p) r).2 hc]

theorem WriteMsgRef_load (r : ResponseReverter) (res : MsgRef) (h : Heap)
    (hd : (res.Answer ++ res.Extra).Nodup)
    (hns : ∀ p ∈ res.Ns, p ∉ res.Answer ++ res.Extra) :
    (r.WriteMsgRef res h).res.load (r.WriteMsgRef res h).heap = (r.WriteMsg (res.load h)).res ∧
    (r.WriteMsgRef res h).handed = (r.WriteMsg (res.load h)).handed ∧
    (r.WriteMsgRef res h).ret = (r.WriteMsg (res.load h)).ret := by
  have hdA : res.Answer.Nodup := (List.nodup_append.1 hd).1
  have hdE : res.Extra.Nodup := (List.nodup_append.1 hd).2.1
  have hdisj : ∀ p ∈ res.Answer, p ∉ res.Extra :=
    fun p hp hp' => (List.nodup_append.1 hd).2.2 hp hp'
  have hA := rangeRecords_map_of_nodup (res.load h) r res.Answer h hdA
  have hE := rangeRecords_map_of_nodup (res.load h) r res.Extra
    (rangeRefs (rewriteAt r.ResponseRules) res.Answer h).1 hdE
  have hEmap : res.Extra.map (rangeRefs (rewriteAt r.ResponseRules) res.Answer h).1 =
      res.Extra.map h :=
    List.map_congr_left (fun p hp =>
      rangeRefs_frame r.ResponseRules res.Answer h p (fun hp' => hdisj p hp' hp))
  rw [hEmap] at hE
  have hAmap : res.Answer.map (rangeRefs (rewriteAt r.ResponseRules) res.Extra
      (rangeRefs (rewriteAt r.ResponseRules) res.Answer h).1).1 =
      res.Answer.map (rangeRefs (rewriteAt r.ResponseRules) res.Answer h).1 :=
    List.map_congr_left (fun p hp => rangeRefs_frame r.ResponseRules res.Extra _ p (hdisj p hp))
  have hNs : ∀ h' : Heap, (∀ p, p ∉ res.Answer ++ res.Extra → h' p = h p) →
      res.Ns.map h' = res.Ns.map h :=
    fun h' hh => List.map_congr_left (fun p hp => hh p (hns p hp))
  have hNsA := hNs _ (fun p hp => rangeRefs_frame r.ResponseRules res.Answer h p
    (fun hp' => hp (List.mem_append_left _ hp')))
  have hNsE := hNs _ (fun p hp => rangeRefs_frame r.ResponseRules (res.Answer ++ res.Extra) h p hp)
  rw [WriteMsgRef_eq, WriteMsg_eq]
  have hload : (res.load h).Question = res.Question := rfl
  by_cases hq : res.Question = []
  · rw [if_pos hq, if_pos (hload.trans hq)]
    exact ⟨rfl, rfl, rfl⟩
  rw [if_neg hq, if_neg (fun e => hq (hload.symm.trans e))]
  by_cases hrw : r.ResponseRewrite = true
  swap
  · rw [if_neg hrw, if_neg hrw]
    exact ⟨rfl, rfl, rfl⟩
  rw [if_pos hrw, if_pos hrw]
  have hAE := rangeRefs_append (rewriteAt r.ResponseRules) res.Answer res.Extra h
  have hA1 : (rangeRecords (fun rr => rewriteResourceRecord (res.load h) rr r)
      (res.load h).Answer) = _ := hA
  have hE1 : (rangeRecords (fun rr => rewriteResourceRecord (res.load h) rr r)
      (res.load h).Extra) = _ := hE
  rw [hA1, hE1]
  by_cases ha : (rangeRefs (rewriteAt r.ResponseRules) res.Answer h).2 = true
  · rw [if_pos ha] at hAE
    simp only [ha, if_true]
    rw [hAE] at hNsE ⊢
    by_cases he : (rangeRefs (rewriteAt r.ResponseRules) res.Extra
        (rangeRefs (rewriteAt r.ResponseRules) res.Answer h).1).2 = true
    · simp only [he, if_true, MsgRef.load, hAmap, hNsE, and_self]
    · simp only [he, if_false, MsgRef.load, hAmap, hNsE, Bool.false_eq_true, and_self]
  · rw [if_neg ha] at hAE
    rw [hAE]
    simp only [ha, if_false, MsgRef.load, hNsA, hEmap, Bool.false_eq_true, and_self]

/-! ## Claims -/

/-- C1. Question restoration: for a request with at least one question, the reverter
`NewResponseReverter` builds captures `Question[0]` of the request; for every reverter
holding that question (whatever `ResponseRewrite` and the rule list are) and every
response with at least one question, the response object after `WriteMsg` has this
question as its `Question[0]`, whatever it held before; every message handed to the
wrapped writer has it too; and a message is handed over whenever rewriting is off or
no type assertion on a record fails. -/
theorem question_restored (w : ResponseWriter) (req : Msg) (hreq : req.Question ≠ [])
    (res : Msg) (hres : res.Question ≠ []) :
    ∃ r0, NewResponseReverter w req = some r0 ∧
      req.Question[0]? = some r0.originalQuestion ∧
      ∀ r : ResponseReverter, r.originalQuestion = r0.originalQuestion →
        (r.WriteMsg res).res.Question[0]? = req.Question[0]? ∧
        (∀ m ∈ (r.WriteMsg res).handed, m.Question[0]? = req.Question[0]?) ∧
        ((r.ResponseRewrite = false ∨ ∀ rr ∈ res.Answer ++ res.Extra, Consistent rr) →
          (r.WriteMsg res).handed = [(r.WriteMsg res).res]) := by
  cases hq : req.Question with
  | nil => exact absurd hq hreq
  | cons q qs =>
    refine ⟨{ ResponseWriter := w, originalQuestion := q, ResponseRewrite := false,
              ResponseRules := [] }, by simp only [NewResponseReverter, hq], by simp, ?_⟩
    intro r hr
    simp only at hr
    have h1 : (r.WriteMsg res).res.Question[0]? = (q :: qs)[0]? := by
      rw [WriteMsg_question, hr]
      cases hq' : res.Question with
      | nil => exact absurd hq' hres
      | cons q' qs' => simp
    refine ⟨h1, ?_, ?_⟩
    · intro m hm
      rw [WriteMsg_handed r res m hm]
      exact h1
    · intro h
      by_cases hrw : r.ResponseRewrite = false
      · exact ((WriteMsg_no_rewrite r res hrw).2 hres).1
      · have hc : ∀ rr ∈ res.Answer ++ res.Extra, Consistent rr := by
          rcases h with h | h
          · exact absurd h hrw
          · exact h
        exact (WriteMsg_rewrite r res (by simpa using hrw) hres hc).1

/-- C1, witness: the theorem at the request and the response of the end-to-end scenario. -/
theorem question_restored_witness :
    scenarioRequest.Question ≠ [] ∧ scenarioResponse.Question ≠ [] ∧
    ∃ r0, NewResponseReverter okWriter scenarioRequest = some r0 ∧
      scenarioRequest.Question[0]? = some r0.originalQuestion ∧
      ∀ r : ResponseReverter, r.originalQuestion = r0.originalQuestion →
        (r.WriteMsg scenarioResponse).res.Question[0]? = scenarioRequest.Question[0]? ∧
        (∀ m ∈ (r.WriteMsg scenarioResponse).handed,
          m.Question[0]? = scenarioRequest.Question[0]?) ∧
        ((r.ResponseRewrite = false ∨
            ∀ rr ∈ scenarioResponse.Answer ++ scenarioResponse.Extra, Consistent rr) →
          (r.WriteMsg scenarioResponse).handed = [(r.WriteMsg scenarioResponse).res]) :=
  ⟨by decide, by decide,
    question_restored okWriter scenarioRequest (by decide) scenarioResponse (by decide)⟩

/-- C2. No-rewrite passthrough: when `ResponseRewrite` is false, whatever the rule list
is, the response object after `WriteMsg` is the input response with `Question[0]`
replaced (when there is one) and nothing else changed; a response with a question is
handed to the wrapped writer exactly so, its `Answer` and `Extra` sections being the
input sections record for record. -/
theorem no_rewrite_passthrough (r : ResponseReverter) (res : Msg)
    (h : r.ResponseRewrite = false) :
    (r.WriteMsg res).res = { res with Question := res.Question.set 0 r.originalQuestion } ∧
    (res.Question ≠ [] → (r.WriteMsg res).handed =
      [{ res with Question := res.Question.set 0 r.originalQuestion }]) ∧
    (∀ m ∈ (r.WriteMsg res).handed,
      m.Answer = res.Answer ∧ m.Extra = res.Extra ∧ m.Ns = res.Ns ∧ m.Hdr = res.Hdr ∧
      m.Compress = res.Compress ∧ m.Question.tail = res.Question.tail) := by
  have h1 := WriteMsg_no_rewrite r res h
  refine ⟨h1.1, ?_, ?_⟩
  · intro hq
    rw [(h1.2 hq).1, h1.1]
  · intro m hm
    rw [WriteMsg_handed r res m hm, h1.1]
    refine ⟨rfl, rfl, rfl, rfl, rfl, ?_⟩
    cases res.Question <;> rfl

/-- C2, witness: the theorem at the reverter of the end-to-end scenario with rewriting
switched off, whose rule list has a NAME rule matching the answer. -/
theorem no_rewrite_passthrough_witness :
    passthroughReverter.ResponseRewrite = false ∧
    (passthroughReverter.WriteMsg scenarioResponse).res =
      { scenarioResponse with
        Question := scenarioResponse.Question.set 0 passthroughReverter.originalQuestion } ∧
    (scenarioResponse.Question ≠ [] →
      (passthroughReverter.WriteMsg scenarioResponse).handed =
      [{ scenarioResponse with
         Question := scenarioResponse.Question.set 0 passthroughReverter.originalQuestion }]) ∧
    (∀ m ∈ (passthroughReverter.WriteMsg scenarioResponse).handed,
      m.Answer = scenarioResponse.Answer ∧ m.Extra = scenarioResponse.Extra ∧
      m.Ns = scenarioResponse.Ns ∧ m.Hdr = scenarioResponse.Hdr ∧
      m.Compress = scenarioResponse.Compress ∧
      m.Question.tail = scenarioResponse.Question.tail) :=
  ⟨rfl, no_rewrite_passthrough passthroughReverter scenarioResponse rfl⟩

/-- C3. Embedded-target rewriting: on an SRV record (header type SRV, concrete type
`*dns.SRV`) `rewriteResourceRecord` completes; the new Target is the result of applying
the NAME rules of the list in order to the original Target, the new owner name is the
result of applying the same rules in order to the original owner name, each being a
function of the rule list and of its own original value only, and priority, weight and
port are kept.  On a record whose header type is not SRV the call completes and leaves
the payload as it was, and a payload that is not an SRV payload is never changed. -/
theorem srv_target_rewritten (res : Msg) (r : ResponseReverter) :
    (∀ (hdr : RR_Header) (priority weight port : Nat) (target : Str),
      hdr.Rrtype = TypeSRV →
      ∃ rr', rewriteResourceRecord res ⟨hdr, .SRV priority weight port target⟩ r = some rr' ∧
        rr'.Body = .SRV priority weight port (applyNameRules r.ResponseRules target) ∧
        rr'.Hdr.Name = applyNameRules r.ResponseRules hdr.Name) ∧
    (∀ rr : RR, rr.Hdr.Rrtype ≠ TypeSRV →
      ∃ rr', rewriteResourceRecord res rr r = some rr' ∧ rr'.Body = rr.Body) ∧
    (∀ (rr rr' : RR) (rdata : List Nat), rr.Body = .Other rdata →
      rewriteResourceRecord res rr r = some rr' → rr'.Body = rr.Body) := by
  refine ⟨?_, ?_, ?_⟩
  · intro hdr priority weight port target hs
    have hc : Consistent ⟨hdr, .SRV priority weight port target⟩ := by
      intro _; simp [srvTargetOf]
    refine ⟨_, rewriteResourceRecord_some res _ r hc, ?_, rfl⟩
    simp [rewrittenRecord, hs]
  · intro rr hs
    have hc : Consistent rr := fun h => absurd h hs
    refine ⟨_, rewriteResourceRecord_some res _ r hc, ?_⟩
    obtain ⟨hdr, body⟩ := rr
    cases body <;> simp_all [rewrittenRecord]
  · intro rr rr' rdata hb h
    rw [rewriteResourceRecord_some_iff] at h
    rw [h.2]
    simp [rewrittenRecord, hb]

/-- C4. TTL rule: for every record, `rewriteResourceRecord` completes unless the header
type is SRV and the concrete type is not `*dns.SRV`; when it completes, the TTL is the
TTL value of the last rule of type "ttl" in the list if there is one (so 300 for the
single rule TTL=300, whatever the TTL was) and the original TTL if there is none; and
when every rule of the list is a "ttl" rule the record is otherwise unchanged. -/
theorem ttl_rule (res : Msg) (rr : RR) (r : ResponseReverter) :
    (rewriteResourceRecord res rr r = none ↔ ¬ Consistent rr) ∧
    ∀ rr', rewriteResourceRecord res rr r = some rr' →
      (∀ rule, (r.ResponseRules.filter (fun x => decide (isTTLRule x))).getLast? = some rule →
        rr'.Hdr.Ttl = rule.TTL) ∧
      (∀ rule, r.ResponseRules = [rule] → isTTLRule rule → rule.TTL = 300 →
        rr'.Hdr.Ttl = 300) ∧
      ((∀ rule ∈ r.ResponseRules, ¬ isTTLRule rule) → rr'.Hdr.Ttl = rr.Hdr.Ttl) ∧
      ((∀ rule ∈ r.ResponseRules, isTTLRule rule) →
        rr' = { rr with Hdr := { rr.Hdr with Ttl := rr'.Hdr.Ttl } }) := by
  refine ⟨rewriteResourceRecord_none_iff res rr r, ?_⟩
  intro rr' h
  rw [rewriteResourceRecord_some_iff] at h
  obtain ⟨_, rfl⟩ := h
  have httl : (rewrittenRecord r.ResponseRules rr).Hdr.Ttl
      = lastTTL r.ResponseRules rr.Hdr.Ttl := by
    simp [rewrittenRecord, ttlAfter_eq_lastTTL]
  refine ⟨?_, ?_, ?_, ?_⟩
  · intro rule hl
    rw [httl, lastTTL, hl]
  · intro rule hr ht h300
    rw [httl, lastTTL, hr]
    simp [ht, h300]
  · intro hno
    rw [httl, lastTTL]
    have : r.ResponseRules.filter (fun x => decide (isTTLRule x)) = [] := by
      rw [List.filter_eq_nil_iff]
      intro a ha
      simpa using hno a ha
    rw [this]
    rfl
  · intro hall
    have hn : ∀ (rules : List ResponseRule), (∀ rule ∈ rules, isTTLRule rule) →
        ∀ name, applyNameRules rules name = name := by
      intro rules
      induction rules with
      | nil => intro _ _; rfl
      | cons rule rest ih =>
        intro h name
        have h1 : ¬ isNameRule rule :=
          isTTLRule_not_name rule (h rule (List.mem_cons_self _ _))
        simp only [applyNameRules, h1, if_false]
        exact ih (fun x hx => h x (List.mem_cons_of_mem _ hx)) name
    obtain ⟨hdr, body⟩ := rr
    cases body <;> simp [rewrittenRecord, hn r.ResponseRules hall]

/-- C5. Rule-order chaining: for every record on which `rewriteResourceRecord` completes,
the owner name it leaves is the result of applying the NAME rules in list order, each
to the text left by the preceding rules; for a list of two NAME rules whose first rule
matches the original name, the second rule's pattern is evaluated on the expansion of the
first rule: the final name is the result of `rewriteName` for the second rule on that
expansion, which is the expansion itself when the second rule does not match it. -/
theorem name_rules_chain (res : Msg) (rr : RR) (r : ResponseReverter) :
    (rewriteResourceRecord res rr r = none ↔ ¬ Consistent rr) ∧
    ∀ rr', rewriteResourceRecord res rr r = some rr' →
      rr'.Hdr.Name = applyNameRules r.ResponseRules rr.Hdr.Name ∧
      ∀ r1 r2, r.ResponseRules = [r1, r2] → isNameRule r1 → isNameRule r2 →
        r1.Pattern rr.Hdr.Name ≠ [] →
        rr'.Hdr.Name =
          (rewriteName r2 (replaceGroups 0 (r1.Pattern rr.Hdr.Name) r1.Replacement) true).1 ∧
        (r2.Pattern (replaceGroups 0 (r1.Pattern rr.Hdr.Name) r1.Replacement) = [] →
          rr'.Hdr.Name = replaceGroups 0 (r1.Pattern rr.Hdr.Name) r1.Replacement) ∧
        (r2.Pattern (replaceGroups 0 (r1.Pattern rr.Hdr.Name) r1.Replacement) ≠ [] →
          rr'.Hdr.Name =
            replaceGroups 0
              (r2.Pattern (replaceGroups 0 (r1.Pattern rr.Hdr.Name) r1.Replacement))
              r2.Replacement) := by
  refine ⟨rewriteResourceRecord_none_iff res rr r, ?_⟩
  intro rr' h
  rw [rewriteResourceRecord_some_iff] at h
  obtain ⟨_, rfl⟩ := h
  refine ⟨rfl, ?_⟩
  intro r1 r2 hr h1 h2 hm
  have e : (rewrittenRecord r.ResponseRules rr).Hdr.Name =
      applyNameRule r2 (replaceGroups 0 (r1.Pattern rr.Hdr.Name) r1.Replacement) := by
    simp [rewrittenRecord, hr, applyNameRules, h1, h2, applyNameRule, hm]
  rw [e, rewriteName_fst]
  refine ⟨rfl, ?_, ?_⟩
  · intro hno; simp [applyNameRule, hno]
  · intro hyes; simp [applyNameRule, hyes]

/-- C6, as amended. Placeholder substitution: when the pattern matches, the name
`rewriteName` leaves is the result of one `strings.Replace` pass per capture group, in
increasing group index, each pass scanning the output of the pass before it; and
whenever no group text holds an opening brace and every opening brace of the template
is closed before the next opening brace, this is the simultaneous substitution of the
placeholders that occur in the template, all other template text being kept. -/
theorem placeholder_substitution (rule : ResponseRule) (name : Str) (dirty : Bool)
    (hm : rule.Pattern name ≠ []) :
    rewriteName rule name dirty = (replaceGroups 0 (rule.Pattern name) rule.Replacement, true) ∧
    (∀ (i : Nat) (g : Str) (rest : List Str) (s : Str),
      replaceGroups i (g :: rest) s = replaceGroups (i + 1) rest (Replace s (groupIndexStr i) g)) ∧
    ((∀ g ∈ rule.Pattern name, lbrace ∉ g) → wellBraced false rule.Replacement = true →
      rewriteName rule name dirty =
        (substituteGroups (rule.Pattern name) rule.Replacement, true)) := by
  have h1 : rewriteName rule name dirty =
      (replaceGroups 0 (rule.Pattern name) rule.Replacement, true) := by
    simp [rewriteName, hm]
  refine ⟨h1, fun _ _ _ _ => rfl, ?_⟩
  intro hg ht
  obtain ⟨ps, hps, hrender⟩ := (wellBraced_pieces rule.Replacement).1 ht
  rw [h1, substituteGroups, ← hrender, replaceGroups_pieces _ 0 ps hg hps,
    substituteScan_pieces _ ps hps]

/-- C6, witness: the amended theorem at the rule and the answer name of the end-to-end
scenario. -/
theorem placeholder_substitution_witness :
    scenarioRule.Pattern "dns.core.rocks".toList ≠ [] ∧
    (rewriteName scenarioRule "dns.core.rocks".toList false =
      (replaceGroups 0 (scenarioRule.Pattern "dns.core.rocks".toList)
        scenarioRule.Replacement, true) ∧
    (∀ (i : Nat) (g : Str) (rest : List Str) (s : Str),
      replaceGroups i (g :: rest) s = replaceGroups (i + 1) rest (Replace s (groupIndexStr i) g)) ∧
    ((∀ g ∈ scenarioRule.Pattern "dns.core.rocks".toList, lbrace ∉ g) →
      wellBraced false scenarioRule.Replacement = true →
      rewriteName scenarioRule "dns.core.rocks".toList false =
        (substituteGroups (scenarioRule.Pattern "dns.core.rocks".toList)
          scenarioRule.Replacement, true))) ∧
    (∀ g ∈ scenarioRule.Pattern "dns.core.rocks".toList, lbrace ∉ g) ∧
    wellBraced false scenarioRule.Replacement = true :=
  ⟨by decide, placeholder_substitution scenarioRule "dns.core.rocks".toList false (by decide),
    by decide, by decide⟩

/-- C6, counterexample. With the groups `{2}.b`, `{2}`, `b` and the template `{1}`,
`rewriteName` yields `b`, the text of group 2, where the simultaneous substitution
yields `{2}`, the text of group 1; and with the groups `2.b`, `2`, `b` and the template
`{1}` between braces, `rewriteName` yields `b` where the simultaneous substitution
yields `{2}`. -/
theorem placeholder_substitution_counterexample :
    (braceGroupRule.Pattern "{2}.b".toList = ["{2}.b".toList, "{2}".toList, "b".toList] ∧
      rewriteName braceGroupRule "{2}.b".toList false = ("b".toList, true) ∧
      substituteGroups (braceGroupRule.Pattern "{2}.b".toList) braceGroupRule.Replacement
        = "{2}".toList ∧
      rewriteName braceGroupRule "{2}.b".toList false ≠
        (substituteGroups (braceGroupRule.Pattern "{2}.b".toList)
          braceGroupRule.Replacement, true)) ∧
    (nestedTemplateRule.Pattern "2.b".toList = ["2.b".toList, "2".toList, "b".toList] ∧
      rewriteName nestedTemplateRule "2.b".toList false = ("b".toList, true) ∧
      substituteGroups (nestedTemplateRule.Pattern "2.b".toList)
        nestedTemplateRule.Replacement = "{2}".toList ∧
      rewriteName nestedTemplateRule "2.b".toList false ≠
        (substituteGroups (nestedTemplateRule.Pattern "2.b".toList)
          nestedTemplateRule.Replacement, true)) := by
  decide

/-- C7. Out-of-range placeholders stay literal: when the pattern matches the name and
the template contains the placeholder text of none of the groups of the match,
`rewriteName` sets the name to the template text unchanged and the flag to true; it
returns a value for every input. -/
theorem out_of_range_placeholders_literal (rule : ResponseRule) (name : Str) (dirty : Bool)
    (hm : rule.Pattern name ≠ [])
    (hno : ∀ i, i < (rule.Pattern name).length → ¬ groupIndexStr i <:+: rule.Replacement) :
    rewriteName rule name dirty = (rule.Replacement, true) := by
  have h := replaceGroups_of_not_infix (rule.Pattern name) 0 rule.Replacement
    (fun i hi => by simpa using hno i hi)
  simp [rewriteName, hm, h]

/-- C7, witness: the theorem at a match with two groups and a template whose only
placeholder names group 5. -/
theorem out_of_range_placeholders_literal_witness :
    literalTemplateRule.Pattern "a.b".toList ≠ [] ∧
    (∀ i, i < (literalTemplateRule.Pattern "a.b".toList).length →
      ¬ groupIndexStr i <:+: literalTemplateRule.Replacement) ∧
    rewriteName literalTemplateRule "a.b".toList false =
      (literalTemplateRule.Replacement, true) :=
  ⟨by decide, by decide,
    out_of_range_placeholders_literal literalTemplateRule "a.b".toList false (by decide)
      (by decide)⟩

/-- C8. Capture substitution example and end-to-end scenario: the pattern
`(a)\.(b)\.(c)` yields the groups a.b.c, a, b, c on the name a.b.c; for every rule whose
match has these groups and whose template is `{2}.{1}.{3}`, `rewriteName` yields b.a.c;
and the reverter captured from the request question core.dns.rocks/A, with
`ResponseRewrite` on and the single NAME rule of the scenario, hands downstream, for the
response with question dns.core.rocks/A and one A answer owned by dns.core.rocks, the
message with question core.dns.rocks/A and answer owner name core.dns.rocks. -/
theorem capture_substitution_scenario :
    findLiteralGroups ["a".toList, "b".toList, "c".toList] ".".toList "a.b.c".toList =
      ["a.b.c".toList, "a".toList, "b".toList, "c".toList] ∧
    (∀ (rule : ResponseRule) (name : Str) (dirty : Bool),
      rule.Pattern name = ["a.b.c".toList, "a".toList, "b".toList, "c".toList] →
      rule.Replacement = "{2}.{1}.{3}".toList →
      rewriteName rule name dirty = ("b.a.c".toList, true)) ∧
    (NewResponseReverter okWriter scenarioRequest).map
        (fun r0 => (({ r0 with ResponseRewrite := true, ResponseRules := [scenarioRule] } :
          ResponseReverter).WriteMsg scenarioResponse).handed) =
      some [{ scenarioResponse with
              Question := [{ Name := "core.dns.rocks".toList, Qtype := TypeA,
                             Qclass := ClassINET }]
              Answer := [recordA "core.dns.rocks".toList] }] := by
  refine ⟨by decide, ?_, by decide⟩
  intro rule name dirty hp hr
  have e : replaceGroups 0 ["a.b.c".toList, "a".toList, "b".toList, "c".toList]
      "{2}.{1}.{3}".toList = "b.a.c".toList := by decide
  unfold rewriteName
  rw [hp, hr]
  simp only [List.length_cons, List.length_nil, Nat.reduceAdd, OfNat.ofNat_ne_zero,
    if_false, e]

/-- C9. Only dirty fields are written back: a NAME rule whose pattern does not match
leaves the working value and the dirty flag as they were; for every record on which
`rewriteResourceRecord` completes, the owner name is unchanged when no NAME rule matches
the successive working owner name (in particular when no NAME rule matches the original
name), the payload with the SRV target is unchanged when no NAME rule matches the
successive working target, the TTL is unchanged when the list has no "ttl" rule, and
the record comes out identical to the input when all three hold. -/
theorem untouched_fields_kept (res : Msg) (rr : RR) (r : ResponseReverter) :
    (rewriteResourceRecord res rr r = none ↔ ¬ Consistent rr) ∧
    (∀ (rule : ResponseRule) (name : Str) (dirty : Bool),
      rule.Pattern name = [] → rewriteName rule name dirty = (name, dirty)) ∧
    ∀ rr', rewriteResourceRecord res rr r = some rr' →
      (anyNameMatch r.ResponseRules rr.Hdr.Name = false → rr'.Hdr.Name = rr.Hdr.Name) ∧
      ((∀ rule ∈ r.ResponseRules, isNameRule rule → rule.Pattern rr.Hdr.Name = []) →
        rr'.Hdr.Name = rr.Hdr.Name) ∧
      ((∀ priority weight port target, rr.Body = .SRV priority weight port target →
          anyNameMatch r.ResponseRules target = false) → rr'.Body = rr.Body) ∧
      ((∀ rule ∈ r.ResponseRules, ¬ isTTLRule rule) → rr'.Hdr.Ttl = rr.Hdr.Ttl) ∧
      (anyNameMatch r.ResponseRules rr.Hdr.Name = false →
        (∀ priority weight port target, rr.Body = .SRV priority weight port target →
          anyNameMatch r.ResponseRules target = false) →
        (∀ rule ∈ r.ResponseRules, ¬ isTTLRule rule) → rr' = rr) := by
  refine ⟨rewriteResourceRecord_none_iff res rr r, ?_, ?_⟩
  · intro rule name dirty h
    simp [rewriteName, h]
  intro rr' h
  rw [rewriteResourceRecord_some_iff] at h
  obtain ⟨_, rfl⟩ := h
  have hname : anyNameMatch r.ResponseRules rr.Hdr.Name = false →
      (rewrittenRecord r.ResponseRules rr).Hdr.Name = rr.Hdr.Name := by
    intro h
    simp [rewrittenRecord, applyNameRules_of_no_match _ _ h]
  have hbody : (∀ priority weight port target, rr.Body = .SRV priority weight port target →
      anyNameMatch r.ResponseRules target = false) →
      (rewrittenRecord r.ResponseRules rr).Body = rr.Body := by
    intro h
    obtain ⟨hdr, body⟩ := rr
    cases body with
    | SRV priority weight port target =>
      have h' := h priority weight port target rfl
      simp [rewrittenRecord, applyNameRules_of_no_match _ _ h']
    | Other rdata => rfl
  have httl : (∀ rule ∈ r.ResponseRules, ¬ isTTLRule rule) →
      (rewrittenRecord r.ResponseRules rr).Hdr.Ttl = rr.Hdr.Ttl := by
    intro h
    have : r.ResponseRules.any (fun rule => decide (isTTLRule rule)) = false := by
      rw [List.any_eq_false]
      intro x hx
      simpa using h x hx
    simp [rewrittenRecord, ttlAfter_of_no_ttl _ _ this]
  refine ⟨hname, fun h => hname (anyNameMatch_of_forall _ _ h), hbody, httl, ?_⟩
  intro h1 h2 h3
  have e1 := hname h1
  have e2 := hbody h2
  have e3 := httl h3
  have e : rewrittenRecord r.ResponseRules rr =
      { Hdr := { rr.Hdr with Name := (rewrittenRecord r.ResponseRules rr).Hdr.Name
                             Ttl := (rewrittenRecord r.ResponseRules rr).Hdr.Ttl }
        Body := (rewrittenRecord r.ResponseRules rr).Body } := rfl
  rw [e, e1, e2, e3]

/-- C10, as amended. Per-slot rewriting of both sections: when `ResponseRewrite` is
true, the response has a question and no type assertion fails, `WriteMsg` hands over
exactly one message, having called `rewriteResourceRecord` once for every slot of
`Answer` and then of `Extra`, with the same rule list, on the record object the slot
points to: a record object that occupies k of these slots has been rewritten k times in
succession.  When no record object occupies two slots of `Answer` and `Extra`, the
`Answer` section handed over is the input `Answer` section with `rewriteResourceRecord`
applied to each record, and likewise `Extra`; the result of `rewriteResourceRecord` on a
record depends only on the record and the rule list. -/
theorem sections_rewritten_per_slot (r : ResponseReverter) (res : MsgRef) (h : Heap)
    (hrw : r.ResponseRewrite = true) (hq : res.Question ≠ [])
    (hc : ∀ p ∈ res.Answer ++ res.Extra, Consistent (h p)) :
    (r.WriteMsgRef res h).handed =
      [(r.WriteMsgRef res h).res.load (r.WriteMsgRef res h).heap] ∧
    (r.WriteMsgRef res h).res.Answer = res.Answer ∧
    (r.WriteMsgRef res h).res.Extra = res.Extra ∧
    (∀ p, (r.WriteMsgRef res h).heap p =
      (rewrittenRecord r.ResponseRules)^[(res.Answer ++ res.Extra).count p] (h p)) ∧
    (∀ (m : Msg) (rr : RR), Consistent rr →
      rewriteResourceRecord m rr r = some (rewrittenRecord r.ResponseRules rr)) ∧
    ((res.Answer ++ res.Extra).Nodup →
      ∀ m ∈ (r.WriteMsgRef res h).handed,
        m.Answer.map some =
          (res.load h).Answer.map (fun rr => rewriteResourceRecord (res.load h) rr r) ∧
        m.Extra.map some =
          (res.load h).Extra.map (fun rr => rewriteResourceRecord (res.load h) rr r)) ∧
    (∀ (res1 res2 : Msg) (r2 : ResponseReverter) (rr : RR),
      r2.ResponseRules = r.ResponseRules →
      rewriteResourceRecord res1 rr r = rewriteResourceRecord res2 rr r2) := by
  have hs := (rangeRefs_snd r.ResponseRules (res.Answer ++ res.Extra) h).2 hc
  have hit := rangeRefs_iterate r.ResponseRules (res.Answer ++ res.Extra) h hc
  have hout : r.WriteMsgRef res h =
      { res := { res with Question := res.Question.set 0 r.originalQuestion }
        heap := (rangeRefs (rewriteAt r.ResponseRules) (res.Answer ++ res.Extra) h).1
        handed := [MsgRef.load { res with Question := res.Question.set 0 r.originalQuestion }
          (rangeRefs (rewriteAt r.ResponseRules) (res.Answer ++ res.Extra) h).1]
        ret := some (r.ResponseWriter.WriteMsg
          (MsgRef.load { res with Question := res.Question.set 0 r.originalQuestion }
            (rangeRefs (rewriteAt r.ResponseRules) (res.Answer ++ res.Extra) h).1)) } := by
    rw [WriteMsgRef_eq, if_neg hq, if_pos hrw, if_pos hs]
  refine ⟨by rw [hout], by rw [hout], by rw [hout], by rw [hout]; exact hit,
    fun m rr hrr => rewriteResourceRecord_some m rr r hrr, ?_, ?_⟩
  · intro hd m hm
    rw [hout] at hm
    simp only [List.mem_singleton] at hm
    subst hm
    have hsome : ∀ l : List Nat, (∀ p ∈ l, p ∈ res.Answer ++ res.Extra) →
        (l.map h).map (fun rr => rewriteResourceRecord (res.load h) rr r) =
          ((l.map h).map (rewrittenRecord r.ResponseRules)).map some := by
      intro l hl
      rw [List.map_map, List.map_map, List.map_map]
      apply List.map_congr_left
      intro p hp
      exact rewriteResourceRecord_some (res.load h) (h p) r (hc p (hl p hp))
    constructor
    · show (res.Answer.map _).map some = (res.Answer.map h).map _
      rw [hsome res.Answer (fun p hp => List.mem_append_left _ hp),
        map_iterate_of_nodup (rewrittenRecord r.ResponseRules) _ res.Answer h _ hit hd
          (fun p hp => List.mem_append_left _ hp)]
    · show (res.Extra.map _).map some = (res.Extra.map h).map _
      rw [hsome res.Extra (fun p hp => List.mem_append_right _ hp),
        map_iterate_of_nodup (rewrittenRecord r.ResponseRules) _ res.Extra h _ hit hd
          (fun p hp => List.mem_append_right _ hp)]
  · intro res1 res2 r2 rr hr
    rw [rewriteResourceRecord_eq, rewriteResourceRecord_eq, hr]

/-- C10, witness: the amended theorem at a response with three distinct record objects,
a matching and a non-matching one in `Answer` and a matching one in `Extra`. -/
theorem sections_rewritten_per_slot_witness :
    scenarioReverter.ResponseRewrite = true ∧ distinctMsg.Question ≠ [] ∧
    (∀ p ∈ distinctMsg.Answer ++ distinctMsg.Extra, Consistent (distinctHeap p)) ∧
    (distinctMsg.Answer ++ distinctMsg.Extra).Nodup ∧
    ((scenarioReverter.WriteMsgRef distinctMsg distinctHeap).handed =
      [(scenarioReverter.WriteMsgRef distinctMsg distinctHeap).res.load
        (scenarioReverter.WriteMsgRef distinctMsg distinctHeap).heap] ∧
    (scenarioReverter.WriteMsgRef distinctMsg distinctHeap).res.Answer = distinctMsg.Answer ∧
    (scenarioReverter.WriteMsgRef distinctMsg distinctHeap).res.Extra = distinctMsg.Extra ∧
    (∀ p, (scenarioReverter.WriteMsgRef distinctMsg distinctHeap).heap p =
      (rewrittenRecord scenarioReverter.ResponseRules)^[
        (distinctMsg.Answer ++ distinctMsg.Extra).count p] (distinctHeap p)) ∧
    (∀ (m : Msg) (rr : RR), Consistent rr →
      rewriteResourceRecord m rr scenarioReverter =
        some (rewrittenRecord scenarioReverter.ResponseRules rr)) ∧
    ((distinctMsg.Answer ++ distinctMsg.Extra).Nodup →
      ∀ m ∈ (scenarioReverter.WriteMsgRef distinctMsg distinctHeap).handed,
        m.Answer.map some =
          (distinctMsg.load distinctHeap).Answer.map
            (fun rr => rewriteResourceRecord (distinctMsg.load distinctHeap) rr
              scenarioReverter) ∧
        m.Extra.map some =
          (distinctMsg.load distinctHeap).Extra.map
            (fun rr => rewriteResourceRecord (distinctMsg.load distinctHeap) rr
              scenarioReverter)) ∧
    (∀ (res1 res2 : Msg) (r2 : ResponseReverter) (rr : RR),
      r2.ResponseRules = scenarioReverter.ResponseRules →
      rewriteResourceRecord res1 rr scenarioReverter = rewriteResourceRecord res2 rr r2)) :=
  ⟨rfl, by decide, by decide, by decide,
    sections_rewritten_per_slot scenarioReverter distinctMsg distinctHeap rfl (by decide)
      (by decide)⟩

/-- C10, counterexample. A response whose answer slot and extra slot point to the same
record object, owned by `x.a`, with the single NAME rule `(.*)` to `{1}.a`:
`rewriteResourceRecord` applied to the input record gives the owner `x.a.a`, but the
message `WriteMsg` hands over has the owner `x.a.a.a` in both sections, the object having
been rewritten once for each slot. -/
theorem sections_rewritten_per_slot_counterexample :
    appendReverter.ResponseRewrite = true ∧
    (sharedExtraMsg.load sharedHeap).Answer = [recordA "x.a".toList] ∧
    (sharedExtraMsg.load sharedHeap).Extra = [recordA "x.a".toList] ∧
    (sharedExtraMsg.load sharedHeap).Answer.map
        (fun rr => rewriteResourceRecord (sharedExtraMsg.load sharedHeap) rr appendReverter) =
      [some (recordA "x.a.a".toList)] ∧
    (appendReverter.WriteMsgRef sharedExtraMsg sharedHeap).handed.map Msg.Answer =
      [[recordA "x.a.a.a".toList]] ∧
    (appendReverter.WriteMsgRef sharedExtraMsg sharedHeap).handed.map Msg.Extra =
      [[recordA "x.a.a.a".toList]] := by
  decide

/-- C11, as amended. Rule evaluation completes on well-typed records:
`rewriteResourceRecord` completes without a runtime failure exactly on the records whose
concrete type is `*dns.SRV` whenever their header type is SRV, whatever the rule list;
for a response with at least one question, `WriteMsg` returns exactly when rewriting is
off or every record of `Answer` and `Extra` is such a record; and whenever `WriteMsg`
returns, what it returns is the result of the wrapped writer. -/
theorem rewrite_step_completes (r : ResponseReverter) (res : Msg) :
    (∀ (m : Msg) (rr : RR), rewriteResourceRecord m rr r ≠ none ↔ Consistent rr) ∧
    (res.Question ≠ [] →
      ((r.WriteMsg res).ret ≠ none ↔
        (r.ResponseRewrite = false ∨ ∀ rr ∈ res.Answer ++ res.Extra, Consistent rr))) ∧
    (∀ e, (r.WriteMsg res).ret = some e →
      e = r.ResponseWriter.WriteMsg (r.WriteMsg res).res) := by
  refine ⟨?_, ?_, ?_⟩
  · intro m rr
    rw [Ne, rewriteResourceRecord_none_iff, not_not]
  · intro hq
    rw [Ne, WriteMsg_ret_none_iff]
    constructor
    · intro h
      by_cases hrw : r.ResponseRewrite = false
      · exact Or.inl hrw
      · right
        intro rr hrr
        by_contra hn
        exact h (Or.inr ⟨by simpa using hrw, rr, hrr, hn⟩)
    · rintro h (hq' | ⟨hrw, rr, hrr, hn⟩)
      · exact hq hq'
      · rcases h with h | h
        · rw [hrw] at h; cases h
        · exact hn (h rr hrr)
  · intro e he
    exact (WriteMsg_ret_some r res e he).2

/-- C11, counterexample. On a record with header type SRV and another concrete type
`rewriteResourceRecord` panics, and `WriteMsg` on a response with a question and this
record as its answer panics with it: nothing is handed to the wrapped writer. -/
theorem rewrite_step_completes_counterexample :
    rewriteResourceRecord mistypedResponse mistypedRecord scenarioReverter = none ∧
    mistypedResponse.Question ≠ [] ∧
    (scenarioReverter.WriteMsg mistypedResponse).ret = none ∧
    (scenarioReverter.WriteMsg mistypedResponse).handed = [] := by
  decide

/-- C12. Downstream write result is surfaced unchanged: whenever `WriteMsg` returns, it
has handed exactly one message to the wrapped writer, the response object as rewriting
left it, with the question restored, and it returns the result of that call, an error
or none; the response object and the message handed over are the same whatever the
wrapped writer returns; and `WriteMsg` fails to return only by a panic before the
hand-over, on a response without a question or on a record whose type assertion fails,
in which case nothing is handed over. -/
theorem downstream_result_surfaced (r : ResponseReverter) (res : Msg) :
    (∀ e, (r.WriteMsg res).ret = some e →
      (r.WriteMsg res).handed = [(r.WriteMsg res).res] ∧
      e = r.ResponseWriter.WriteMsg (r.WriteMsg res).res) ∧
    (r.WriteMsg res).res.Question = res.Question.set 0 r.originalQuestion ∧
    (∀ w : ResponseWriter,
      (({ r with ResponseWriter := w } : ResponseReverter).WriteMsg res).res =
        (r.WriteMsg res).res ∧
      (({ r with ResponseWriter := w } : ResponseReverter).WriteMsg res).handed =
        (r.WriteMsg res).handed ∧
      ((({ r with ResponseWriter := w } : ResponseReverter).WriteMsg res).ret = none ↔
        (r.WriteMsg res).ret = none)) ∧
    ((r.WriteMsg res).ret = none ↔
      res.Question = [] ∨
      (r.ResponseRewrite = true ∧ ∃ rr ∈ res.Answer ++ res.Extra, ¬ Consistent rr)) ∧
    ((r.WriteMsg res).ret = none → (r.WriteMsg res).handed = []) := by
  refine ⟨WriteMsg_ret_some r res, WriteMsg_question r res, ?_, WriteMsg_ret_none_iff r res,
    WriteMsg_ret_none r res⟩
  intro w
  have hg : (fun rr => rewriteResourceRecord res rr { r with ResponseWriter := w }) =
      (fun rr => rewriteResourceRecord res rr r) := rfl
  refine ⟨?_, ?_, ?_⟩
  · rw [WriteMsg_eq, WriteMsg_eq]
    simp only [hg]
    split_ifs <;> rfl
  · rw [WriteMsg_eq, WriteMsg_eq]
    simp only [hg]
    split_ifs <;> rfl
  · rw [WriteMsg_ret_none_iff, WriteMsg_ret_none_iff]

/-- C13, as amended. Rules carry no section scope: whatever section scope the rule table
names for the rules, `WriteMsg` applies the whole rule list to the records of `Answer`
and of `Extra` alike; exchanging the two sections of the response exchanges them in the
message handed to the wrapped writer, both sections of that message are the input
sections with `rewriteResourceRecord` applied to each record with the same rules, and
two rule tables that differ only in section scopes give the same outcome. -/
theorem rules_apply_to_both_sections (r : ResponseReverter) (rules : List RewriteRule)
    (res : Msg) :
    (({ r with ResponseRules := rules.map RewriteRule.rule } : ResponseReverter).WriteMsg
        (swapSections res)).handed =
      (({ r with ResponseRules := rules.map RewriteRule.rule } : ResponseReverter).WriteMsg
        res).handed.map swapSections ∧
    (∀ m ∈ (({ r with ResponseRules := rules.map RewriteRule.rule } :
        ResponseReverter).WriteMsg res).handed,
      r.ResponseRewrite = true →
      m.Answer.map some = res.Answer.map (fun rr => rewriteResourceRecord res rr
        { r with ResponseRules := rules.map RewriteRule.rule }) ∧
      m.Extra.map some = res.Extra.map (fun rr => rewriteResourceRecord res rr
        { r with ResponseRules := rules.map RewriteRule.rule })) ∧
    (∀ rules' : List RewriteRule, rules'.map RewriteRule.rule = rules.map RewriteRule.rule →
      ({ r with ResponseRules := rules'.map RewriteRule.rule } : ResponseReverter).WriteMsg res =
        ({ r with ResponseRules := rules.map RewriteRule.rule } : ResponseReverter).WriteMsg
          res) := by
  refine ⟨?_, ?_, ?_⟩
  · obtain ⟨g, hg⟩ : ∃ g : RR → Option RR, ∀ m : Msg,
        (fun rr => rewriteResourceRecord m rr
          { r with ResponseRules := rules.map RewriteRule.rule }) = g :=
      ⟨fun rr => rewriteResourceRecord res rr
        { r with ResponseRules := rules.map RewriteRule.rule }, fun _ => rfl⟩
    rw [WriteMsg_eq, WriteMsg_eq]
    simp only [hg]
    simp only [swapSections]
    split_ifs <;> simp [swapSections]
  · intro m hm hrw
    have hret : (({ r with ResponseRules := rules.map RewriteRule.rule } :
        ResponseReverter).WriteMsg res).ret ≠ none := by
      intro hn
      rw [WriteMsg_ret_none _ res hn] at hm
      cases hm
    rw [Ne, WriteMsg_ret_none_iff, not_or, not_and, not_exists] at hret
    have hc : ∀ rr ∈ res.Answer ++ res.Extra, Consistent rr := by
      intro rr hrr
      have := hret.2 hrw rr
      simpa [hrr] using this
    have h := WriteMsg_rewrite { r with ResponseRules := rules.map RewriteRule.rule } res hrw
      hret.1 hc
    rw [WriteMsg_handed _ res m hm]
    exact ⟨h.2.2.1, h.2.2.2.1⟩
  · intro rules' h
    rw [h]

/-- C13, counterexample. In the SRV test of the repository the single rule is configured
for the answer section, and `WriteMsg` rewrites with it the owner name of the A record of
the `Extra` section; the same rule scoped to the extra section rewrites the SRV record of
the `Answer` section; and a "ttl" rule scoped to the answer section sets the TTL of the
`Extra` record. -/
theorem rules_apply_to_both_sections_counterexample :
    (srvTestResponse.Extra = [recordA "srv1.my.cluster.local.".toList] ∧
      ((srvTestReverter [⟨srvTestRule, .ANSWER, .STOP⟩]).WriteMsg srvTestResponse).handed.map
          Msg.Extra = [[recordA "srv1.my.domain.uk.".toList]]) ∧
    (srvTestResponse.Answer =
        [recordSRV "my.cluster.local.".toList "srv1.my.cluster.local.".toList] ∧
      ((srvTestReverter [⟨srvTestRule, .EXTRA, .STOP⟩]).WriteMsg srvTestResponse).handed.map
          Msg.Answer = [[recordSRV "my.domain.uk.".toList "srv1.my.domain.uk.".toList]]) ∧
    ((srvTestReverter [⟨ttlRule300, .ANSWER, .STOP⟩]).WriteMsg srvTestResponse).handed.map
        (fun m => m.Extra.map (fun rr => rr.Hdr.Ttl)) = [[300]] ∧
    srvTestResponse.Extra.map (fun rr => rr.Hdr.Ttl) = [5] := by
  decide

/-- C14, as amended. Rules carry no continuation policy and the loop over the rule list
never stops early: whatever continuation policy the rule table names for the rules,
running `rewriteResourceRecord` with a list followed by a second list is running it with
the first list and then, on the record this leaves, with the second list, so every rule
after a matching rule is still applied, to the value the earlier rules left; and two
rule tables that differ only in continuation policies give the same result. -/
theorem no_rule_stops_evaluation (res : Msg) (rr : RR) (r : ResponseReverter)
    (l1 l2 : List RewriteRule) :
    rewriteResourceRecord res rr { r with ResponseRules := (l1 ++ l2).map RewriteRule.rule } =
      (rewriteResourceRecord res rr { r with ResponseRules := l1.map RewriteRule.rule }).bind
        (fun rr' => rewriteResourceRecord res rr'
          { r with ResponseRules := l2.map RewriteRule.rule }) ∧
    (∀ rr', rewriteResourceRecord res rr
        { r with ResponseRules := (l1 ++ l2).map RewriteRule.rule } = some rr' →
      rr'.Hdr.Name = applyNameRules (l2.map RewriteRule.rule)
        (applyNameRules (l1.map RewriteRule.rule) rr.Hdr.Name)) ∧
    (∀ l : List RewriteRule, l.map RewriteRule.rule = (l1 ++ l2).map RewriteRule.rule →
      rewriteResourceRecord res rr { r with ResponseRules := l.map RewriteRule.rule } =
        rewriteResourceRecord res rr
          { r with ResponseRules := (l1 ++ l2).map RewriteRule.rule }) := by
  refine ⟨?_, ?_, ?_⟩
  · by_cases hc : Consistent rr
    · rw [rewriteResourceRecord_some res rr _ hc, rewriteResourceRecord_some res rr _ hc,
        Option.some_bind,
        rewriteResourceRecord_some res _ _ ((consistent_rewrittenRecord _ rr).2 hc)]
      simp only [List.map_append, rewrittenRecord_append]
    · rw [(rewriteResourceRecord_none_iff res rr _).2 hc,
        (rewriteResourceRecord_none_iff res rr _).2 hc]
      rfl
  · intro rr' h
    rw [rewriteResourceRecord_some_iff] at h
    rw [h.2]
    simp only [List.map_append, rewrittenRecord_append]
    rfl
  · intro l h
    rw [h]

/-- C14, counterexample. With the rule of the end-to-end scenario first, given the policy
STOP, and a second NAME rule after it, the first rule matches the owner name
dns.core.rocks and makes it core.dns.rocks, and the second rule is applied all the same:
the record comes out with the owner name rocks.dns.core, not with core.dns.rocks. -/
theorem no_rule_stops_evaluation_counterexample :
    scenarioRule.Pattern "dns.core.rocks".toList ≠ [] ∧
    rewriteResourceRecord scenarioResponse (recordA "dns.core.rocks".toList)
        { scenarioReverter with
          ResponseRules := [⟨scenarioRule, SectionScope.ANSWER, Continuation.STOP⟩].map
            RewriteRule.rule } = some (recordA "core.dns.rocks".toList) ∧
    rewriteResourceRecord scenarioResponse (recordA "dns.core.rocks".toList)
        { scenarioReverter with
          ResponseRules := [⟨scenarioRule, SectionScope.ANSWER, Continuation.STOP⟩,
            ⟨secondRule, SectionScope.ANSWER, Continuation.CONTINUE⟩].map
            RewriteRule.rule } = some (recordA "rocks.dns.core".toList) ∧
    recordA "rocks.dns.core".toList ≠ recordA "core.dns.rocks".toList := by
  decide

/-- C15. Byte passthrough: `Write` returns exactly the byte count and the error that the
wrapped writer's `Write` returns on the same buffer, whatever the captured question, the
rewrite flag and the rule list of the reverter are. -/
theorem write_passthrough (r : ResponseReverter) (buf : List Nat) :
    r.Write buf = r.ResponseWriter.Write buf ∧
    (r.Write buf).1 = (r.ResponseWriter.Write buf).1 ∧
    (r.Write buf).2 = (r.ResponseWriter.Write buf).2 ∧
    (∀ r' : ResponseReverter, r'.ResponseWriter = r.ResponseWriter →
      r'.Write buf = r.Write buf) := by
  refine ⟨rfl, rfl, rfl, ?_⟩
  intro r' h
  simp only [ResponseReverter.Write, h]

/-- C16, as amended. Structure preservation up to sharing: for every reverter and every
response, `WriteMsg` leaves the slots of `Answer`, `Ns` and `Extra`, the message header,
the compression flag, the number of questions and every question after the first as they
were; every record object keeps its type, class, data length and payload, but for the
target of an SRV payload; a record object that occupies no slot of `Answer` or `Extra` is
not changed at all, so the authority section reads as before whenever none of its record
objects also sits in `Answer` or `Extra`; and what is handed to the wrapped writer is the
message as the call leaves it. -/
theorem structure_preserved_up_to_sharing (r : ResponseReverter) (res : MsgRef) (h : Heap) :
    (r.WriteMsgRef res h).res.Answer = res.Answer ∧
    (r.WriteMsgRef res h).res.Extra = res.Extra ∧
    (r.WriteMsgRef res h).res.Ns = res.Ns ∧
    (r.WriteMsgRef res h).res.Hdr = res.Hdr ∧
    (r.WriteMsgRef res h).res.Compress = res.Compress ∧
    (r.WriteMsgRef res h).res.Question.tail = res.Question.tail ∧
    (r.WriteMsgRef res h).res.Question.length = res.Question.length ∧
    (∀ p, SameShape (h p) ((r.WriteMsgRef res h).heap p)) ∧
    (∀ p, p ∉ res.Answer ++ res.Extra → (r.WriteMsgRef res h).heap p = h p) ∧
    List.Forall₂ SameShape (res.load h).Answer
      ((r.WriteMsgRef res h).res.load (r.WriteMsgRef res h).heap).Answer ∧
    List.Forall₂ SameShape (res.load h).Extra
      ((r.WriteMsgRef res h).res.load (r.WriteMsgRef res h).heap).Extra ∧
    ((∀ p ∈ res.Ns, p ∉ res.Answer ++ res.Extra) →
      ((r.WriteMsgRef res h).res.load (r.WriteMsgRef res h).heap).Ns = (res.load h).Ns) ∧
    (∀ m ∈ (r.WriteMsgRef res h).handed,
      m = (r.WriteMsgRef res h).res.load (r.WriteMsgRef res h).heap) := by
  have hq : (res.Question.set 0 r.originalQuestion).tail = res.Question.tail := by
    cases res.Question <;> rfl
  have hshape := rangeRefs_shape r.ResponseRules (res.Answer ++ res.Extra) h
  have hframe := rangeRefs_frame r.ResponseRules (res.Answer ++ res.Extra) h
  have h1 : (r.WriteMsgRef res h).res.Answer = res.Answer := by
    rw [WriteMsgRef_eq]; split_ifs <;> rfl
  have h2 : (r.WriteMsgRef res h).res.Extra = res.Extra := by
    rw [WriteMsgRef_eq]; split_ifs <;> rfl
  have h3 : (r.WriteMsgRef res h).res.Ns = res.Ns := by
    rw [WriteMsgRef_eq]; split_ifs <;> rfl
  have h8 : ∀ p, SameShape (h p) ((r.WriteMsgRef res h).heap p) := by
    intro p
    rw [WriteMsgRef_eq]; split_ifs <;> first | exact hshape p | exact sameShape_refl _
  have h9 : ∀ p, p ∉ res.Answer ++ res.Extra → (r.WriteMsgRef res h).heap p = h p := by
    intro p hp
    rw [WriteMsgRef_eq]; split_ifs <;> first | exact hframe p hp | rfl
  have hmap : ∀ l : List Nat,
      List.Forall₂ SameShape (l.map h) (l.map (r.WriteMsgRef res h).heap) := by
    intro l
    rw [List.forall₂_map_left_iff, List.forall₂_map_right_iff]
    exact List.forall₂_same.2 (fun p _ => h8 p)
  refine ⟨h1, h2, h3, ?_, ?_, ?_, ?_, h8, h9, ?_, ?_, ?_, ?_⟩
  · rw [WriteMsgRef_eq]; split_ifs <;> rfl
  · rw [WriteMsgRef_eq]; split_ifs <;> rfl
  · rw [WriteMsgRef_eq]; split_ifs <;> first | rfl | exact hq
  · rw [WriteMsgRef_eq]; split_ifs <;> simp
  · show List.Forall₂ SameShape (res.Answer.map h)
      ((r.WriteMsgRef res h).res.Answer.map (r.WriteMsgRef res h).heap)
    rw [h1]; exact hmap _
  · show List.Forall₂ SameShape (res.Extra.map h)
      ((r.WriteMsgRef res h).res.Extra.map (r.WriteMsgRef res h).heap)
    rw [h2]; exact hmap _
  · intro hns
    show (r.WriteMsgRef res h).res.Ns.map (r.WriteMsgRef res h).heap = res.Ns.map h
    rw [h3]
    exact List.map_congr_left (fun p hp => h9 p (hns p hp))
  · intro m hm
    rw [WriteMsgRef_eq] at hm ⊢
    split_ifs at hm ⊢ <;> simp_all

/-- C16, counterexample. A response whose answer slot and authority slot point to the
same record object, owned by `x.a`, with the single NAME rule `(.*)` to `{1}.a`: the
authority section of the message `WriteMsg` hands over has the owner `x.a.a`, that of the
input the owner `x.a`. -/
theorem structure_preserved_up_to_sharing_counterexample :
    (sharedNsMsg.load sharedHeap).Ns = [recordA "x.a".toList] ∧
    (appendReverter.WriteMsgRef sharedNsMsg sharedHeap).handed.map Msg.Ns =
      [[recordA "x.a.a".toList]] ∧
    (appendReverter.WriteMsgRef sharedNsMsg sharedHeap).handed.map Msg.Ns ≠
      [(sharedNsMsg.load sharedHeap).Ns] := by
  decide

/-- C17. The `Active` flag has no effect on response rewriting: for every record and
every two rule lists of the same length whose rules agree pairwise in type, pattern,
replacement and TTL, `rewriteResourceRecord` gives the same result, so a rule with
`Active` false is applied exactly like the same rule with `Active` true. -/
theorem active_flag_ignored (res : Msg) (rr : RR) (r : ResponseReverter)
    (rules1 rules2 : List ResponseRule) (h : List.Forall₂ SameButActive rules1 rules2) :
    rewriteResourceRecord res rr { r with ResponseRules := rules1 } =
      rewriteResourceRecord res rr { r with ResponseRules := rules2 } := by
  apply rewriteResourceRecord_congr
  apply foldl_ruleStep_congr
  exact List.Forall₂.imp (fun a b hab v => ruleStep_sameButActive rr v a b hab) h

/-- C17, witness: the theorem at the answer and the rule of the end-to-end scenario, the
rule once with `Active` true and once with `Active` false. -/
theorem active_flag_ignored_witness :
    List.Forall₂ SameButActive [scenarioRule] [{ scenarioRule with Active := false }] ∧
    rewriteResourceRecord scenarioResponse (recordA "dns.core.rocks".toList)
        { scenarioReverter with ResponseRules := [scenarioRule] } =
      rewriteResourceRecord scenarioResponse (recordA "dns.core.rocks".toList)
        { scenarioReverter with ResponseRules := [{ scenarioRule with Active := false }] } :=
  ⟨List.Forall₂.cons ⟨rfl, rfl, rfl, rfl⟩ List.Forall₂.nil,
    active_flag_ignored scenarioResponse (recordA "dns.core.rocks".toList) scenarioReverter
      [scenarioRule] [{ scenarioRule with Active := false }]
      (List.Forall₂.cons ⟨rfl, rfl, rfl, rfl⟩ List.Forall₂.nil)⟩

/-- C18. Rule type dispatch: in every rule list, a rule whose type is the empty string
can be replaced by the same rule with type "name" without changing what
`rewriteResourceRecord` does to any record; a rule whose type is neither empty nor
"name" nor "ttl" can be removed from the list without changing it; and the loop over the
rule list leaves the list as it was, since the defaulting is done on the loop variable,
a copy of the list element. -/
theorem rule_type_dispatch (res : Msg) (rr : RR) (r : ResponseReverter) :
    (∀ (l1 l2 : List ResponseRule) (rule : ResponseRule), rule.RuleType = [] →
      rewriteResourceRecord res rr { r with ResponseRules := l1 ++ rule :: l2 } =
        rewriteResourceRecord res rr
          { r with ResponseRules := l1 ++ { rule with RuleType := "name".toList } :: l2 }) ∧
    (∀ (l1 l2 : List ResponseRule) (rule : ResponseRule),
      rule.RuleType ≠ [] → rule.RuleType ≠ "name".toList → rule.RuleType ≠ "ttl".toList →
      rewriteResourceRecord res rr { r with ResponseRules := l1 ++ rule :: l2 } =
        rewriteResourceRecord res rr { r with ResponseRules := l1 ++ l2 }) ∧
    (∀ (rules : List ResponseRule) (v : Locals),
      (rangeRules rr rules v).2 = rules ∧
      (rangeRules rr rules v).1 = rules.foldl (ruleStep rr) v) := by
  refine ⟨?_, ?_, ?_⟩
  · intro l1 l2 rule h
    apply rewriteResourceRecord_congr
    intro v
    simp only [List.foldl_append, List.foldl_cons, ruleStep_default rr _ rule h]
  · intro l1 l2 rule h1 h2 h3
    apply rewriteResourceRecord_congr
    intro v
    have hn : ¬ isNameRule rule := fun h => h.elim h1 h2
    simp only [List.foldl_append, List.foldl_cons, ruleStep_other rr _ rule hn h3]
  · intro rules
    induction rules with
    | nil => intro v; exact ⟨rfl, rfl⟩
    | cons rule rest ih =>
      intro v
      have h := ih (ruleStep rr v rule)
      exact ⟨by simp only [rangeRules, h.1], by simp only [rangeRules, h.2, List.foldl_cons]⟩

end Rewrite
